import Mathlib

/-!
# Membership list of the SWIM-style failure detector

A shallow embedding of `src/membershiplist/membership-list.go`.

* The view `MembershipList.items` (a Go slice) is a `List`; the embedded
  `sync.RWMutex` is dropped: every method holds the exclusive lock for its whole
  body, so a method is one atomic step on the list.
* `time.Time` is an integer count of nanoseconds since the Unix epoch, and
  `Time.Unix` truncates it to whole seconds. Each method takes the value of
  `time.Now()` as the argument `now`; the reads of the clock within one call
  all give this one value.
* `NodeStatus` is a Go `int` with five named constants; it is an `Int` here, so
  values outside the five names (which a decoded peer list may carry) are
  covered as well.
* Go `int` is taken to be 64 bits wide; `wrapInt` is the two's complement
  wrap-around of `int` and `int64`, applied where the source does arithmetic on
  such values (the incarnation bump, the difference of two second counts).
* Logging is dropped. The UDP send of `UpdateStates` is an output list of
  byte strings; whether its connections can be opened is an input of the run.
-/

namespace membershiplist

/-! ## Data model -/

/-- Go `type NodeStatus int`. -/
abbrev NodeStatus := Int

/-- Status constant `Alive` (iota 0). -/
def Alive : NodeStatus := 0
/-- Status constant `Suspicious` (iota 1). -/
def Suspicious : NodeStatus := 1
/-- Status constant `Failed` (iota 2). -/
def Failed : NodeStatus := 2
/-- Status constant `Delete` (iota 3). -/
def Delete : NodeStatus := 3
/-- Status constant `Left` (iota 4). -/
def Left : NodeStatus := 4

/-- Message kind tag `MessageUpdate`. -/
def MessageUpdate : Nat := 1
/-- Message kind tag `MessageJoin`. -/
def MessageJoin : Nat := 2
/-- Message kind tag `MessageFailed`. -/
def MessageFailed : Nat := 3
/-- Message kind tag `MessageDelete`. -/
def MessageDelete : Nat := 4

/-- A point in time: nanoseconds since the Unix epoch. -/
abbrev Time := Int

/-- Go `Time.Unix()`: whole seconds since the epoch (rounded towards minus infinity). -/
def Time.Unix (t : Time) : Int := t / 1000000000

/-- Go `type NodeState struct`. -/
structure NodeState where
  Status : NodeStatus
  Timestamp : Time
  deriving DecidableEq, Repr

/-- Go `type MembershipListItem struct`. -/
structure MembershipListItem where
  Id : String
  State : NodeState
  IncarnationNumber : Int
  UDPPort : Int
  deriving DecidableEq, Repr

/-- Go `type MembershipList struct` without its lock. -/
structure MembershipList where
  items : List MembershipListItem
  deriving DecidableEq, Repr

/-- The timeouts `T_FAIL`, `T_DELETE`, `T_LEAVE` (package variables, in seconds) and the
map `globob.IptoHostMap` of a package that is not part of the sources (a Go map lookup
of a missing key yields the empty string, so the map is a total function). -/
structure Config where
  T_FAIL : Int
  T_DELETE : Int
  T_LEAVE : Int
  IptoHostMap : String → String

/-- The values the source initialises the timeouts with. -/
def defaultTimeouts (hostMap : String → String) : Config :=
  { T_FAIL := 1, T_DELETE := 1, T_LEAVE := 2, IptoHostMap := hostMap }

/-- Two's complement wrap-around of a 64-bit Go `int`. -/
def wrapInt (n : Int) : Int := (n + 9223372036854775808) % 18446744073709551616 - 9223372036854775808

/-! ## Operations -/

/-- Go `NewMembershipList`: the empty view, or the view over the first given slice. -/
def NewMembershipList (listItems : List (List MembershipListItem)) : MembershipList :=
  match listItems with
  | [] => { items := [] }
  | first :: _ => { items := first }

/-- Go `Append`: the new view and the returned index `len(ml.items) - 1`. -/
def MembershipList.Append (ml : MembershipList) (item : MembershipListItem) :
    MembershipList × Int :=
  ({ items := ml.items ++ [item] }, ((ml.items ++ [item]).length : Int) - 1)

/-- Go `Len`. -/
def MembershipList.Len (ml : MembershipList) : Int := (ml.items.length : Int)

/-- Go `GetList`. -/
def MembershipList.GetList (ml : MembershipList) : List MembershipListItem := ml.items

/-- Go `Clean`: the loop that copies every item whose status is not `Delete`. -/
def cleanLoop : List MembershipListItem → List MembershipListItem
  | [] => []
  | item :: rest =>
    if item.State.Status ≠ Delete then item :: cleanLoop rest else cleanLoop rest

/-- Go `Clean`. -/
def MembershipList.Clean (ml : MembershipList) : MembershipList :=
  { items := cleanLoop ml.items }

/-- The loop of `UpdateSelfIncarnationNumber`: the first item with the given id gets its
incarnation number increased by one, then the loop breaks. -/
def updateSelfIncarnationNumberLoop (myId : String) :
    List MembershipListItem → List MembershipListItem
  | [] => []
  | item :: rest =>
    if item.Id = myId then
      { item with IncarnationNumber := wrapInt (item.IncarnationNumber + 1) } :: rest
    else item :: updateSelfIncarnationNumberLoop myId rest

/-- Go `UpdateSelfIncarnationNumber`. -/
def MembershipList.UpdateSelfIncarnationNumber (ml : MembershipList) (myId : String) :
    MembershipList :=
  { items := updateSelfIncarnationNumberLoop myId ml.items }

/-- The loop of `MarkSus`: the first item with the given id and status `Alive` becomes
`Suspicious` with timestamp `now`, then the loop breaks. -/
def markSusLoop (now : Time) (nodeId : String) :
    List MembershipListItem → List MembershipListItem
  | [] => []
  | item :: rest =>
    if item.Id = nodeId ∧ item.State.Status = Alive then
      { item with State := { Status := Suspicious, Timestamp := now } } :: rest
    else item :: markSusLoop now nodeId rest

/-- Go `MarkSus`. -/
def MembershipList.MarkSus (ml : MembershipList) (now : Time) (nodeId : String) :
    MembershipList :=
  { items := markSusLoop now nodeId ml.items }

/-- The loop of `MarkLeave`: the first item with the given id becomes `Left` with
timestamp `now`, then the loop breaks. -/
def markLeaveLoop (now : Time) (nodeId : String) :
    List MembershipListItem → List MembershipListItem
  | [] => []
  | item :: rest =>
    if item.Id = nodeId then
      { item with State := { Status := Left, Timestamp := now } } :: rest
    else item :: markLeaveLoop now nodeId rest

/-- Go `MarkLeave`. -/
def MembershipList.MarkLeave (ml : MembershipList) (now : Time) (nodeId : String) :
    MembershipList :=
  { items := markLeaveLoop now nodeId ml.items }

/-- The body of the first loop of `Merge` for two items with equal ids (source lines
270 to 291): the item appended to `newItems`. -/
def mergeItem (now : Time) (m1Item m2Item : MembershipListItem) : MembershipListItem :=
  if m1Item.State.Status = Failed ∨ m1Item.State.Status = Delete ∨
      m1Item.State.Status = Left then
    m1Item
  else if (m2Item.State.Status = Failed ∨ m2Item.State.Status = Delete ∨
      m2Item.State.Status = Left) ∧ m1Item.State.Status ≠ m2Item.State.Status then
    { m1Item with State := { m2Item.State with Timestamp := now } }
  else if m2Item.IncarnationNumber > m1Item.IncarnationNumber then
    { m1Item with
        State := { m2Item.State with Timestamp := now },
        IncarnationNumber := m2Item.IncarnationNumber }
  else m1Item

/-- The first loop of `Merge`, started with `m1.items[i:]` and `m2[j:]`: the items it
appends to `newItems`, and what is left of either slice (`m1.items[i:]`, `m2[j:]`) when it
stops. On equal ids both cursors advance, otherwise only `j` does. -/
def mergeWalk (now : Time) :
    List MembershipListItem → List MembershipListItem →
      List MembershipListItem × List MembershipListItem × List MembershipListItem
  | [], m2 => ([], [], m2)
  | m1Item :: rest1, [] => ([], m1Item :: rest1, [])
  | m1Item :: rest1, m2Item :: rest2 =>
    if m1Item.Id = m2Item.Id then
      let w := mergeWalk now rest1 rest2
      (mergeItem now m1Item m2Item :: w.1, w.2.1, w.2.2)
    else mergeWalk now (m1Item :: rest1) rest2

/-- The third loop of `Merge`: of the incoming items that are left, those with status
`Alive` or `Suspicious` are appended with timestamp `now`. -/
def mergeAdmit (now : Time) : List MembershipListItem → List MembershipListItem
  | [] => []
  | m2Item :: rest =>
    if m2Item.State.Status = Alive ∨ m2Item.State.Status = Suspicious then
      { m2Item with State := { m2Item.State with Timestamp := now } } :: mergeAdmit now rest
    else mergeAdmit now rest

/-- Go `Merge`: the walk, then the rest of the local slice unchanged, then the admitted
rest of the incoming slice. -/
def MembershipList.Merge (m1 : MembershipList) (now : Time) (m2 : List MembershipListItem) :
    MembershipList :=
  let w := mergeWalk now m1.items m2
  { items := w.1 ++ w.2.1 ++ mergeAdmit now w.2.2 }

/-- The bytes of a string (`[]byte(s)`, UTF-8). -/
def stringBytes (s : String) : List Nat :=
  (s.data.flatMap String.utf8EncodeChar).map (fun b => b.toNat)

/-- Go `strings.Split(s, ":")[0]`: the part of `s` before its first colon. -/
def beforeColon (s : String) : String :=
  String.mk (s.data.takeWhile (fun c => c ≠ ':'))

/-- Go `generateFailedBuffer`: the tag `MessageFailed`, a colon, the host name. -/
def generateFailedBuffer (cfg : Config) (hostIp : String) : List Nat :=
  [MessageFailed] ++ [(':').toNat] ++ stringBytes (cfg.IptoHostMap (beforeColon hostIp))

/-- What a run of `UpdateStates` leaves behind: the view when the run ends (by return or
by the panic on a connection that could not be opened), the messages handed to
`conn.Write` in order, and whether the run reached its `return`. -/
structure AgingRun where
  view : MembershipList
  sent : List (List Nat)
  completed : Bool

/-- One iteration of the loop of `UpdateStates` on `ml.items[i]`: the item afterwards, the
messages written in this iteration, and whether the loop goes on. The two second counts
are `int64` and their difference wraps around (`wrapInt`). In the `Suspicious` branch the
status is written first (source line 354); `dialOk` says whether the two `net.Dial` calls
of this iteration (in `GetthisHostIP` and at line 362) succeed. When one fails the source
only logs the error and then uses the nil connection, which panics before `conn.Write`:
nothing is sent and the loop stops. An error of `conn.Write` itself is only logged. -/
def updateStatesItem (cfg : Config) (currentTime : Int) (dialOk : Bool)
    (item : MembershipListItem) : MembershipListItem × List (List Nat) × Bool :=
  if item.State.Status = Suspicious ∧
      wrapInt (currentTime - Time.Unix item.State.Timestamp) ≥ cfg.T_FAIL then
    if dialOk then
      ({ item with State := { item.State with Status := Failed } },
        [generateFailedBuffer cfg item.Id], true)
    else
      ({ item with State := { item.State with Status := Failed } }, [], false)
  else if item.State.Status = Failed ∧
      wrapInt (currentTime - Time.Unix item.State.Timestamp) ≥ cfg.T_DELETE then
    ({ item with State := { item.State with Status := Delete } }, [], true)
  else if item.State.Status = Left ∧
      wrapInt (currentTime - Time.Unix item.State.Timestamp) ≥ cfg.T_LEAVE then
    ({ item with State := { item.State with Status := Delete } }, [], true)
  else (item, [], true)

/-- The loop of `UpdateStates` from index `i` on: the items afterwards, the messages sent
in order, and whether the loop ran to its end. `dialOk i` is the outcome of the dials of
iteration `i`; after a failed dial the remaining items are left as they are. -/
def updateStatesLoop (cfg : Config) (currentTime : Int) (dialOk : Nat → Bool) :
    Nat → List MembershipListItem → List MembershipListItem × List (List Nat) × Bool
  | _, [] => ([], [], true)
  | i, item :: rest =>
    let r := updateStatesItem cfg currentTime (dialOk i) item
    if r.2.2 then
      let w := updateStatesLoop cfg currentTime dialOk (i + 1) rest
      (r.1 :: w.1, r.2.1 ++ w.2.1, w.2.2)
    else (r.1 :: rest, r.2.1, false)

/-- Go `UpdateStates` with `currentTime := time.Now().Unix()`, in an environment `dialOk`
that tells for each index whether the connections of that iteration can be opened. A
completed run returns the view it leaves. -/
def MembershipList.UpdateStates (ml : MembershipList) (cfg : Config) (now : Time)
    (dialOk : Nat → Bool) : AgingRun :=
  let w := updateStatesLoop cfg (Time.Unix now) dialOk 0 ml.items
  { view := { items := w.1 }, sent := w.2.1, completed := w.2.2 }

/-! ## Vocabulary of the properties -/

/-- Terminal statuses: `Failed`, `Delete`, `Left`. -/
def isTerminal (s : NodeStatus) : Prop := s = Failed ∨ s = Delete ∨ s = Left

/-- Non-terminal statuses: `Alive`, `Suspicious`. -/
def isLive (s : NodeStatus) : Prop := s = Alive ∨ s = Suspicious

instance (s : NodeStatus) : Decidable (isTerminal s) := by unfold isTerminal; infer_instance

instance (s : NodeStatus) : Decidable (isLive s) := by unfold isLive; infer_instance

/-- The ids of a sequence of records, in order. -/
def ids (v : List MembershipListItem) : List String := v.map (fun x => x.Id)

/-- No two records share an id. -/
def NoDupIds (v : List MembershipListItem) : Prop := (ids v).Nodup

/-- Strictly increasing by id. -/
def SortedById (v : List MembershipListItem) : Prop := (ids v).Pairwise (fun a b => a < b)

/-- Identity part of a record that no operation changes: id and port. -/
def idPort (x : MembershipListItem) : String × Int := (x.Id, x.UDPPort)

/-- The view `after` extends `before`: it is at least as long and its first
`before.length` records carry the ids and ports of `before`, in order. -/
def Extends (before after : List MembershipListItem) : Prop :=
  before.length ≤ after.length ∧ (after.take before.length).map idPort = before.map idPort

/-- Equality of two records up to the timestamp. -/
def sameUpToTime (x y : MembershipListItem) : Prop :=
  x.Id = y.Id ∧ x.State.Status = y.State.Status ∧
    x.IncarnationNumber = y.IncarnationNumber ∧ x.UDPPort = y.UDPPort

/-- The difference of the two whole-second counts, as an integer: the seconds of `now`
minus the seconds of the record's timestamp. -/
def elapsedSeconds (now : Time) (item : MembershipListItem) : Int :=
  Time.Unix now - Time.Unix item.State.Timestamp

/-- The elapsed time the aging pass compares with a threshold: the `int64` value of
`currentTime - item.State.Timestamp.Unix()`, that is `elapsedSeconds` wrapped to 64 bits. -/
def elapsedInt64 (now : Time) (item : MembershipListItem) : Int :=
  wrapInt (elapsedSeconds now item)

/-- The aging rule in the words of the specification: `Suspicious` becomes `Failed` after
`T_FAIL`, `Failed` becomes `Delete` after `T_DELETE`, `Left` becomes `Delete` after
`T_LEAVE`, every other status stays. -/
def agingRule (cfg : Config) (elapsed : Int) (s : NodeStatus) : NodeStatus :=
  if s = Suspicious ∧ elapsed ≥ cfg.T_FAIL then Failed
  else if (s = Failed ∧ elapsed ≥ cfg.T_DELETE) ∨ (s = Left ∧ elapsed ≥ cfg.T_LEAVE) then Delete
  else s

/-- The record with another status, every other field as it is. -/
def withStatus (s : NodeStatus) (x : MembershipListItem) : MembershipListItem :=
  { x with State := { x.State with Status := s } }

/-- The record with timestamp `now`, every other field as it is. -/
def withTimestamp (now : Time) (x : MembershipListItem) : MembershipListItem :=
  { x with State := { x.State with Timestamp := now } }

/-- The fields of a record that aging never changes: id, incarnation number and port. -/
def idIncPort (x : MembershipListItem) : String × Int × Int :=
  (x.Id, x.IncarnationNumber, x.UDPPort)

/-- The record is moved from `Suspicious` to `Failed` by an aging pass at time `now`. -/
def failsNow (cfg : Config) (now : Time) (x : MembershipListItem) : Prop :=
  x.State.Status = Suspicious ∧ elapsedInt64 now x ≥ cfg.T_FAIL

instance (cfg : Config) (now : Time) (x : MembershipListItem) : Decidable (failsNow cfg now x) := by
  unfold failsNow; infer_instance

/-- An aging step of record `x` into `y` from status `s` to status `s'` under threshold `T`
(seconds): the whole-second counts of `now` and of the timestamp of `x` differ by at least
`T`, and more than `T - 1` seconds have really elapsed (in nanoseconds). -/
def firedAfter (now : Time) (x y : MembershipListItem) (s s' : NodeStatus) (T : Int) : Prop :=
  x.State.Status = s ∧ y.State.Status = s' ∧ elapsedSeconds now x ≥ T ∧
    now - x.State.Timestamp > (T - 1) * 1000000000

/-- The largest value of a 64-bit Go `int`. -/
def maxInt : Int := 9223372036854775807

/-- The smallest value of a 64-bit Go `int`. -/
def minInt : Int := -9223372036854775808

/-! ## The merge walk -/

theorem mergeItem_Id (now : Time) (a b : MembershipListItem) :
    (mergeItem now a b).Id = a.Id := by
  unfold mergeItem; split_ifs <;> rfl

theorem mergeItem_UDPPort (now : Time) (a b : MembershipListItem) :
    (mergeItem now a b).UDPPort = a.UDPPort := by
  unfold mergeItem; split_ifs <;> rfl

theorem mergeItem_of_terminal (now : Time) (a b : MembershipListItem)
    (h : isTerminal a.State.Status) : mergeItem now a b = a := by
  unfold isTerminal at h
  unfold mergeItem; rw [if_pos h]

theorem live_not_terminal {s : NodeStatus} (h : isLive s) : ¬ isTerminal s := by
  unfold isLive at h
  unfold isTerminal
  rcases h with h | h <;> subst h <;> decide

theorem mergeItem_self (now : Time) (a : MembershipListItem) : mergeItem now a a = a := by
  unfold mergeItem; split_ifs with h1 h2 h3
  · rfl
  · exact absurd rfl h2.2
  · exact absurd h3 (lt_irrefl _)
  · rfl

/-- Every local record comes out of the walk at its own position, either untouched or
combined by `mergeItem` with an incoming record of the same id. -/
theorem mergeWalk_front (now : Time) (m2 : List MembershipListItem) :
    ∀ m1 : List MembershipListItem,
      List.Forall₂ (fun l o => o = l ∨ ∃ r ∈ m2, r.Id = l.Id ∧ o = mergeItem now l r) m1
        ((mergeWalk now m1 m2).1 ++ (mergeWalk now m1 m2).2.1) := by
  induction m2 with
  | nil =>
    intro m1
    cases m1 with
    | nil => simp [mergeWalk]
    | cons a rest1 =>
      simp only [mergeWalk, List.nil_append]
      exact List.forall₂_same.mpr (fun x _ => Or.inl rfl)
  | cons b rest2 ih =>
    intro m1
    cases m1 with
    | nil => simp [mergeWalk]
    | cons a rest1 =>
      simp only [mergeWalk]
      split_ifs with h
      · refine List.Forall₂.cons (Or.inr ⟨b, List.mem_cons_self _ _, h.symm, rfl⟩) ?_
        refine (ih rest1).imp ?_
        rintro l o (ho | ⟨r, hr, hid, ho⟩)
        · exact Or.inl ho
        · exact Or.inr ⟨r, List.mem_cons_of_mem _ hr, hid, ho⟩
      · refine (ih (a :: rest1)).imp ?_
        rintro l o (ho | ⟨r, hr, hid, ho⟩)
        · exact Or.inl ho
        · exact Or.inr ⟨r, List.mem_cons_of_mem _ hr, hid, ho⟩

theorem mergeWalk_front_length (now : Time) (m1 m2 : List MembershipListItem) :
    ((mergeWalk now m1 m2).1 ++ (mergeWalk now m1 m2).2.1).length = m1.length :=
  ((mergeWalk_front now m2 m1).length_eq).symm

theorem mergeWalk_front_idPort (now : Time) (m1 m2 : List MembershipListItem) :
    ((mergeWalk now m1 m2).1 ++ (mergeWalk now m1 m2).2.1).map idPort = m1.map idPort := by
  have h := mergeWalk_front now m2 m1
  generalize (mergeWalk now m1 m2).1 ++ (mergeWalk now m1 m2).2.1 = out at h
  induction h with
  | nil => rfl
  | @cons l o _ _ hab _ ih =>
    have ho : idPort o = idPort l := by
      rcases hab with ho | ⟨r, _, _, ho⟩
      · rw [ho]
      · rw [ho]; simp [idPort, mergeItem_Id, mergeItem_UDPPort]
    simp [ho, ih]

theorem mergeWalk_front_ids (now : Time) (m1 m2 : List MembershipListItem) :
    ids ((mergeWalk now m1 m2).1 ++ (mergeWalk now m1 m2).2.1) = ids m1 := by
  have h := congrArg (List.map Prod.fst) (mergeWalk_front_idPort now m1 m2)
  simpa [ids, idPort, List.map_map, Function.comp_def] using h

/-- When the ids agree position by position the walk pairs the two sequences off. -/
theorem mergeWalk_of_ids_eq (now : Time) (m2 : List MembershipListItem) :
    ∀ m1 : List MembershipListItem, ids m1 = ids m2 →
      mergeWalk now m1 m2 = (List.zipWith (mergeItem now) m1 m2, [], []) := by
  induction m2 with
  | nil =>
    intro m1 h
    cases m1 with
    | nil => rfl
    | cons a rest1 => simp [ids] at h
  | cons b rest2 ih =>
    intro m1 h
    cases m1 with
    | nil => simp [ids] at h
    | cons a rest1 =>
      simp only [ids, List.map_cons, List.cons.injEq] at h
      simp only [mergeWalk, if_pos h.1, ih rest1 h.2, List.zipWith_cons_cons]

theorem Merge_of_ids_eq (now : Time) (m1 : MembershipList) (m2 : List MembershipListItem)
    (h : ids m1.items = ids m2) :
    (m1.Merge now m2).items = List.zipWith (mergeItem now) m1.items m2 := by
  simp [MembershipList.Merge, mergeWalk_of_ids_eq now m2 m1.items h, mergeAdmit]

/-- A local record at position `k` is at position `k` of the merged view, untouched or
combined with an incoming record of the same id. -/
theorem Merge_getElem?_local (m1 : MembershipList) (m2 : List MembershipListItem)
    (now : Time) (k : Nat) (l : MembershipListItem) (hk : m1.items[k]? = some l) :
    ∃ o, (m1.Merge now m2).items[k]? = some o ∧
      (o = l ∨ ∃ r ∈ m2, r.Id = l.Id ∧ o = mergeItem now l r) := by
  obtain ⟨hk1, hkl⟩ := List.getElem?_eq_some.mp hk
  have h := List.forall₂_iff_get.mp (mergeWalk_front now m2 m1.items)
  have hk2 : k < ((mergeWalk now m1.items m2).1 ++ (mergeWalk now m1.items m2).2.1).length := by
    rw [← h.1]; exact hk1
  have hR := h.2 k hk1 hk2
  simp only [List.get_eq_getElem] at hR
  rw [hkl] at hR
  refine ⟨_, ?_, hR⟩
  show (((mergeWalk now m1.items m2).1 ++ (mergeWalk now m1.items m2).2.1) ++
    mergeAdmit now (mergeWalk now m1.items m2).2.2)[k]? = _
  rw [List.getElem?_append_left hk2, List.getElem?_eq_getElem hk2]

theorem zipWith_mergeItem_self (now : Time) (v : List MembershipListItem) :
    List.zipWith (mergeItem now) v v = v := by
  induction v with
  | nil => rfl
  | cons a rest ih => simp [mergeItem_self, ih]

/-! ## Merge: the three rules and idempotence -/

/-- C1: terminal local findings are kept. For every local view, every incoming sequence
and every time `now`, a local record at index `k` whose status is `Failed`, `Delete` or
`Left` is found at index `k` of the merged view, equal in every field. -/
theorem Merge_keeps_terminal (m1 : MembershipList) (m2 : List MembershipListItem)
    (now : Time) (k : Nat) (l : MembershipListItem) (hk : m1.items[k]? = some l)
    (ht : isTerminal l.State.Status) :
    (m1.Merge now m2).items[k]? = some l := by
  obtain ⟨o, ho, hcase⟩ := Merge_getElem?_local m1 m2 now k l hk
  rcases hcase with h | ⟨r, _, _, h⟩
  · rw [ho, h]
  · rw [ho, h, mergeItem_of_terminal now l r ht]

/-- Witness of C1: a local `Failed` record with incarnation 1 survives an incoming `Alive`
record of the same id with incarnation 9. -/
theorem Merge_keeps_terminal_witness :
    (MembershipList.Merge ⟨[⟨"n1", ⟨Failed, 5⟩, 1, 8000⟩]⟩ 99
        [⟨"n1", ⟨Alive, 7⟩, 9, 8000⟩]).items[0]? =
      some ⟨"n1", ⟨Failed, 5⟩, 1, 8000⟩ :=
  Merge_keeps_terminal ⟨[⟨"n1", ⟨Failed, 5⟩, 1, 8000⟩]⟩ [⟨"n1", ⟨Alive, 7⟩, 9, 8000⟩] 99 0
    ⟨"n1", ⟨Failed, 5⟩, 1, 8000⟩ rfl (Or.inl rfl)

/-- C2: terminal override (rule b). When the ids of the local view and of the incoming
sequence agree position by position, a position `k` with a local `Alive` or `Suspicious`
record and an incoming `Failed`, `Delete` or `Left` record holds, after the merge, the
incoming status with timestamp `now` and the local id, incarnation number and port,
whatever the two incarnation numbers are. -/
theorem Merge_terminal_override (m1 : MembershipList) (m2 : List MembershipListItem)
    (now : Time) (k : Nat) (l r : MembershipListItem) (hids : ids m1.items = ids m2)
    (hl : m1.items[k]? = some l) (hr : m2[k]? = some r)
    (hlive : isLive l.State.Status) (hterm : isTerminal r.State.Status) :
    (m1.Merge now m2).items[k]? =
      some { Id := l.Id, State := { Status := r.State.Status, Timestamp := now },
             IncarnationNumber := l.IncarnationNumber, UDPPort := l.UDPPort } := by
  rw [Merge_of_ids_eq now m1 m2 hids, List.getElem?_zipWith, hl, hr]
  have h1 : ¬ isTerminal l.State.Status := live_not_terminal hlive
  have h2 : l.State.Status ≠ r.State.Status := fun h => h1 (h ▸ hterm)
  unfold isTerminal at h1 hterm
  simp only [mergeItem, if_neg h1]
  rw [if_pos ⟨hterm, h2⟩]

/-- Witness of C2: local `Alive` with incarnation 10, incoming `Failed` with incarnation 1,
gives `Failed`. -/
theorem Merge_terminal_override_witness :
    (MembershipList.Merge ⟨[⟨"n1", ⟨Alive, 5⟩, 10, 8000⟩]⟩ 99
        [⟨"n1", ⟨Failed, 7⟩, 1, 9000⟩]).items[0]? =
      some ⟨"n1", ⟨Failed, 99⟩, 10, 8000⟩ :=
  Merge_terminal_override ⟨[⟨"n1", ⟨Alive, 5⟩, 10, 8000⟩]⟩ [⟨"n1", ⟨Failed, 7⟩, 1, 9000⟩] 99 0
    ⟨"n1", ⟨Alive, 5⟩, 10, 8000⟩ ⟨"n1", ⟨Failed, 7⟩, 1, 9000⟩ rfl rfl rfl
    (Or.inl rfl) (Or.inl rfl)

/-- C3: incarnation precedence (rule c). When the ids of the local view and of the incoming
sequence agree position by position, at a position `k` where both records are `Alive` or
`Suspicious`: a larger incoming incarnation number makes the merged record take the incoming
status and incarnation number with timestamp `now`, keeping the local id and port; an equal
or smaller one leaves the local record as it is, in every field. -/
theorem Merge_incarnation_precedence (m1 : MembershipList) (m2 : List MembershipListItem)
    (now : Time) (k : Nat) (l r : MembershipListItem) (hids : ids m1.items = ids m2)
    (hl : m1.items[k]? = some l) (hr : m2[k]? = some r)
    (hlive : isLive l.State.Status) (hrlive : isLive r.State.Status) :
    (r.IncarnationNumber > l.IncarnationNumber →
      (m1.Merge now m2).items[k]? =
        some { Id := l.Id, State := { Status := r.State.Status, Timestamp := now },
               IncarnationNumber := r.IncarnationNumber, UDPPort := l.UDPPort }) ∧
    (r.IncarnationNumber ≤ l.IncarnationNumber → (m1.Merge now m2).items[k]? = some l) := by
  rw [Merge_of_ids_eq now m1 m2 hids, List.getElem?_zipWith, hl, hr]
  have h1 : ¬ isTerminal l.State.Status := live_not_terminal hlive
  have h2 : ¬ isTerminal r.State.Status := live_not_terminal hrlive
  unfold isTerminal at h1 h2
  have h3 : ¬ ((r.State.Status = Failed ∨ r.State.Status = Delete ∨ r.State.Status = Left) ∧
      l.State.Status ≠ r.State.Status) := fun h => h2 h.1
  simp only [mergeItem, if_neg h1, if_neg h3]
  constructor
  · intro hgt
    rw [if_pos hgt]
  · intro hle
    rw [if_neg (not_lt.mpr hle)]

/-- Witness of C3: local `Alive` with incarnation 3 and incoming `Suspicious` with
incarnation 5 give `Suspicious` with incarnation 5. -/
theorem Merge_incarnation_precedence_witness :
    (MembershipList.Merge ⟨[⟨"n1", ⟨Alive, 5⟩, 3, 8000⟩]⟩ 99
        [⟨"n1", ⟨Suspicious, 7⟩, 5, 9000⟩]).items[0]? =
      some ⟨"n1", ⟨Suspicious, 99⟩, 5, 8000⟩ :=
  (Merge_incarnation_precedence ⟨[⟨"n1", ⟨Alive, 5⟩, 3, 8000⟩]⟩
    [⟨"n1", ⟨Suspicious, 7⟩, 5, 9000⟩] 99 0
    ⟨"n1", ⟨Alive, 5⟩, 3, 8000⟩ ⟨"n1", ⟨Suspicious, 7⟩, 5, 9000⟩ rfl rfl rfl
    (Or.inl rfl) (Or.inr rfl)).1 (by decide)

/-- C4: merge idempotence. Merging a snapshot of the view into the view gives a view of the
same length that has, at every position, the id, status, incarnation number and port of
the original. -/
theorem Merge_idempotent (m1 : MembershipList) (now : Time) :
    (m1.Merge now m1.items).items.length = m1.items.length ∧
      List.Forall₂ sameUpToTime (m1.Merge now m1.items).items m1.items := by
  rw [Merge_of_ids_eq now m1 m1.items rfl, zipWith_mergeItem_self]
  exact ⟨rfl, List.forall₂_same.mpr (fun x _ => ⟨rfl, rfl, rfl, rfl⟩)⟩

/-! ## Merge: admission of new records -/

theorem mem_mergeAdmit (now : Time) (v : List MembershipListItem) (x : MembershipListItem)
    (hx : x ∈ mergeAdmit now v) :
    isLive x.State.Status ∧ ∃ r ∈ v, x.Id = r.Id ∧ x.State.Status = r.State.Status := by
  induction v with
  | nil => simp [mergeAdmit] at hx
  | cons b rest ih =>
    simp only [mergeAdmit] at hx
    split_ifs at hx with h
    · rcases List.mem_cons.mp hx with hx | hx
      · subst hx
        exact ⟨h, b, List.mem_cons_self _ _, rfl, rfl⟩
      · obtain ⟨h1, r, hr, h2⟩ := ih hx
        exact ⟨h1, r, List.mem_cons_of_mem _ hr, h2⟩
    · obtain ⟨h1, r, hr, h2⟩ := ih hx
      exact ⟨h1, r, List.mem_cons_of_mem _ hr, h2⟩

theorem mem_ids {v : List MembershipListItem} {x : MembershipListItem} (hx : x ∈ v) :
    x.Id ∈ ids v :=
  List.mem_map_of_mem (fun y => y.Id) hx

/-- A record of the merged view whose id is not a local id was admitted by the third loop. -/
theorem Merge_mem_unknown (m1 : MembershipList) (m2 : List MembershipListItem) (now : Time)
    (x : MembershipListItem) (hx : x ∈ (m1.Merge now m2).items) (hid : x.Id ∉ ids m1.items) :
    x ∈ mergeAdmit now (mergeWalk now m1.items m2).2.2 := by
  have hx2 : x ∈ ((mergeWalk now m1.items m2).1 ++ (mergeWalk now m1.items m2).2.1) ++
      mergeAdmit now (mergeWalk now m1.items m2).2.2 := hx
  rcases List.mem_append.mp hx2 with h | h
  · exact absurd (mergeWalk_front_ids now m1.items m2 ▸ mem_ids h) hid
  · exact h

/-- C5: new-record admission, negative half. Every record of the merged view whose id is
not an id of the local view has status `Alive` or `Suspicious`; and for an incoming record
with an unknown id and status `Failed`, `Delete` or `Left` the merged view holds no record
with that id and that status. -/
theorem Merge_admits_only_live (m1 : MembershipList) (m2 : List MembershipListItem)
    (now : Time) :
    (∀ x ∈ (m1.Merge now m2).items, x.Id ∉ ids m1.items → isLive x.State.Status) ∧
    (∀ r ∈ m2, r.Id ∉ ids m1.items → isTerminal r.State.Status →
      ∀ x ∈ (m1.Merge now m2).items, ¬ (x.Id = r.Id ∧ x.State.Status = r.State.Status)) := by
  have key : ∀ x ∈ (m1.Merge now m2).items, x.Id ∉ ids m1.items → isLive x.State.Status :=
    fun x hx hid => (mem_mergeAdmit now _ x (Merge_mem_unknown m1 m2 now x hx hid)).1
  refine ⟨key, ?_⟩
  rintro r _ hid hterm x hx ⟨hxid, hxs⟩
  exact live_not_terminal (key x hx (hxid ▸ hid)) (hxs ▸ hterm)

/-- Witness of C5: with local view `[n1]` and incoming `[n1, n2 Failed, n3 Alive]`, the
record `n3` of the merged view has an unknown id and is `Alive`, and the merged view is
`[n1, n3]`: the `Failed` record `n2` is not in it. -/
theorem Merge_admits_only_live_witness :
    (MembershipList.Merge ⟨[⟨"n1", ⟨Alive, 5⟩, 0, 8000⟩]⟩ 99
        [⟨"n1", ⟨Alive, 5⟩, 0, 8000⟩, ⟨"n2", ⟨Failed, 5⟩, 0, 8000⟩,
          ⟨"n3", ⟨Alive, 5⟩, 0, 8000⟩]).items =
      [⟨"n1", ⟨Alive, 5⟩, 0, 8000⟩, ⟨"n3", ⟨Alive, 99⟩, 0, 8000⟩] ∧
    isLive (MembershipListItem.mk "n3" ⟨Alive, 99⟩ 0 8000).State.Status ∧
    ¬ ((MembershipListItem.mk "n3" ⟨Alive, 99⟩ 0 8000).Id = "n2" ∧
      (MembershipListItem.mk "n3" ⟨Alive, 99⟩ 0 8000).State.Status = Failed) :=
  ⟨by decide,
    (Merge_admits_only_live ⟨[⟨"n1", ⟨Alive, 5⟩, 0, 8000⟩]⟩
      [⟨"n1", ⟨Alive, 5⟩, 0, 8000⟩, ⟨"n2", ⟨Failed, 5⟩, 0, 8000⟩,
        ⟨"n3", ⟨Alive, 5⟩, 0, 8000⟩] 99).1 ⟨"n3", ⟨Alive, 99⟩, 0, 8000⟩
      (by decide) (by decide),
    (Merge_admits_only_live ⟨[⟨"n1", ⟨Alive, 5⟩, 0, 8000⟩]⟩
      [⟨"n1", ⟨Alive, 5⟩, 0, 8000⟩, ⟨"n2", ⟨Failed, 5⟩, 0, 8000⟩,
        ⟨"n3", ⟨Alive, 5⟩, 0, 8000⟩] 99).2 ⟨"n2", ⟨Failed, 5⟩, 0, 8000⟩
      (by decide) (by decide) (Or.inl rfl) ⟨"n3", ⟨Alive, 99⟩, 0, 8000⟩ (by decide)⟩

/-- C6 as stated fails. The local view `[b]` and the incoming sequence
`[a, b]` are both strictly increasing by id; the incoming record `a` is `Alive` and its id
is unknown locally. The walk skips `a` because its id differs from that of `b`, and the
merged view is `[b]`: no record with id `a` is in it. -/
theorem Merge_skips_unknown_alive :
    SortedById [MembershipListItem.mk "b" ⟨Alive, 5⟩ 0 8000] ∧
    SortedById [MembershipListItem.mk "a" ⟨Alive, 5⟩ 0 8000, ⟨"b", ⟨Alive, 5⟩, 0, 8000⟩] ∧
    NoDupIds [MembershipListItem.mk "b" ⟨Alive, 5⟩ 0 8000] ∧
    NoDupIds [MembershipListItem.mk "a" ⟨Alive, 5⟩ 0 8000, ⟨"b", ⟨Alive, 5⟩, 0, 8000⟩] ∧
    (MembershipListItem.mk "a" ⟨Alive, 5⟩ 0 8000).State.Status = Alive ∧
    "a" ∉ ids [MembershipListItem.mk "b" ⟨Alive, 5⟩ 0 8000] ∧
    (MembershipList.Merge ⟨[⟨"b", ⟨Alive, 5⟩, 0, 8000⟩]⟩ 99
        [⟨"a", ⟨Alive, 5⟩, 0, 8000⟩, ⟨"b", ⟨Alive, 5⟩, 0, 8000⟩]).items =
      [⟨"b", ⟨Alive, 5⟩, 0, 8000⟩] ∧
    "a" ∉ ids (MembershipList.Merge ⟨[⟨"b", ⟨Alive, 5⟩, 0, 8000⟩]⟩ 99
        [⟨"a", ⟨Alive, 5⟩, 0, 8000⟩, ⟨"b", ⟨Alive, 5⟩, 0, 8000⟩]).items := by
  refine ⟨?_, ?_, ?_, ?_, rfl, ?_, ?_, ?_⟩
  · simp [SortedById, ids]
  · simp only [SortedById, ids, List.map_cons, List.map_nil, List.pairwise_cons,
      List.mem_singleton, forall_eq, String.lt_iff_toList_lt]
    decide
  · unfold NoDupIds; decide
  · unfold NoDupIds; decide
  · decide
  · decide
  · decide

/-- C7, evaluated at a failing input. The local view `[a, c]` and the incoming sequence
`[c]` are both strictly increasing by id; the id `c` occurs in both, `Alive` locally and
`Failed` in the incoming sequence. The walk compares the local `a` with the incoming `c`,
advances only the incoming cursor and runs out of incoming records, so both local records
are appended unchanged: the record `c` of the merged view is still `Alive`. -/
theorem Merge_misses_incoming_failure :
    SortedById [MembershipListItem.mk "a" ⟨Alive, 5⟩ 0 8000, ⟨"c", ⟨Alive, 5⟩, 0, 8000⟩] ∧
    SortedById [MembershipListItem.mk "c" ⟨Failed, 7⟩ 0 8000] ∧
    NoDupIds [MembershipListItem.mk "a" ⟨Alive, 5⟩ 0 8000, ⟨"c", ⟨Alive, 5⟩, 0, 8000⟩] ∧
    NoDupIds [MembershipListItem.mk "c" ⟨Failed, 7⟩ 0 8000] ∧
    isLive (MembershipListItem.mk "c" ⟨Alive, 5⟩ 0 8000).State.Status ∧
    isTerminal (MembershipListItem.mk "c" ⟨Failed, 7⟩ 0 8000).State.Status ∧
    (MembershipList.Merge ⟨[⟨"a", ⟨Alive, 5⟩, 0, 8000⟩, ⟨"c", ⟨Alive, 5⟩, 0, 8000⟩]⟩ 99
        [⟨"c", ⟨Failed, 7⟩, 0, 8000⟩]).items =
      [⟨"a", ⟨Alive, 5⟩, 0, 8000⟩, ⟨"c", ⟨Alive, 5⟩, 0, 8000⟩] ∧
    (MembershipList.Merge ⟨[⟨"a", ⟨Alive, 5⟩, 0, 8000⟩, ⟨"c", ⟨Alive, 5⟩, 0, 8000⟩]⟩ 99
        [⟨"c", ⟨Failed, 7⟩, 0, 8000⟩]).items[1]? = some ⟨"c", ⟨Alive, 5⟩, 0, 8000⟩ := by
  refine ⟨?_, ?_, ?_, ?_, Or.inl rfl, Or.inl rfl, ?_, ?_⟩
  · simp only [SortedById, ids, List.map_cons, List.map_nil, List.pairwise_cons,
      List.mem_singleton, forall_eq, String.lt_iff_toList_lt]
    decide
  · simp [SortedById, ids]
  · unfold NoDupIds; decide
  · unfold NoDupIds; decide
  · decide
  · decide

/-! ## Length, ids and ports under the operations -/

theorem Extends.of_map_eq {before after : List MembershipListItem}
    (h : after.map idPort = before.map idPort) : Extends before after := by
  have hlen : after.length = before.length := by
    simpa using congrArg List.length h
  refine ⟨le_of_eq hlen.symm, ?_⟩
  rw [← hlen, List.take_length, h]

theorem Extends.append_right (before tail : List MembershipListItem) :
    Extends before (before ++ tail) := by
  refine ⟨by simp, ?_⟩
  rw [List.take_left' rfl]

theorem updateSelfIncarnationNumberLoop_idPort (myId : String) (v : List MembershipListItem) :
    (updateSelfIncarnationNumberLoop myId v).map idPort = v.map idPort := by
  induction v with
  | nil => rfl
  | cons a rest ih =>
    simp only [updateSelfIncarnationNumberLoop]
    split_ifs
    · simp [idPort]
    · simp [ih]

theorem markSusLoop_idPort (now : Time) (nodeId : String) (v : List MembershipListItem) :
    (markSusLoop now nodeId v).map idPort = v.map idPort := by
  induction v with
  | nil => rfl
  | cons a rest ih =>
    simp only [markSusLoop]
    split_ifs
    · simp [idPort]
    · simp [ih]

theorem markLeaveLoop_idPort (now : Time) (nodeId : String) (v : List MembershipListItem) :
    (markLeaveLoop now nodeId v).map idPort = v.map idPort := by
  induction v with
  | nil => rfl
  | cons a rest ih =>
    simp only [markLeaveLoop]
    split_ifs
    · simp [idPort]
    · simp [ih]

theorem updateStatesItem_fst (cfg : Config) (t : Int) (d : Bool) (x : MembershipListItem) :
    (updateStatesItem cfg t d x).1 =
      withStatus (agingRule cfg (wrapInt (t - Time.Unix x.State.Timestamp)) x.State.Status)
        x := by
  unfold updateStatesItem agingRule
  by_cases h1 : x.State.Status = Suspicious ∧
      wrapInt (t - Time.Unix x.State.Timestamp) ≥ cfg.T_FAIL
  · rw [if_pos h1, if_pos h1]
    cases d <;> rfl
  · rw [if_neg h1, if_neg h1]
    by_cases h2 : x.State.Status = Failed ∧
        wrapInt (t - Time.Unix x.State.Timestamp) ≥ cfg.T_DELETE
    · rw [if_pos h2, if_pos (Or.inl h2)]; rfl
    · rw [if_neg h2]
      by_cases h3 : x.State.Status = Left ∧
          wrapInt (t - Time.Unix x.State.Timestamp) ≥ cfg.T_LEAVE
      · rw [if_pos h3, if_pos (Or.inr h3)]; rfl
      · rw [if_neg h3, if_neg (fun h => h.elim h2 h3)]; rfl

/-- On every run of the loop, completed or cut short, each item comes out at its own
position, either as it was or with the status the aging rule gives it. -/
theorem updateStatesLoop_rel (cfg : Config) (t : Int) (dialOk : Nat → Bool)
    (v : List MembershipListItem) :
    ∀ i : Nat, List.Forall₂
      (fun x y => y = x ∨ y = withStatus
        (agingRule cfg (wrapInt (t - Time.Unix x.State.Timestamp)) x.State.Status) x)
      v (updateStatesLoop cfg t dialOk i v).1 := by
  induction v with
  | nil => intro i; simp [updateStatesLoop]
  | cons a rest ih =>
    intro i
    simp only [updateStatesLoop]
    split_ifs
    · exact List.Forall₂.cons (Or.inr (updateStatesItem_fst cfg t _ a)) (ih (i + 1))
    · exact List.Forall₂.cons (Or.inr (updateStatesItem_fst cfg t _ a))
        (List.forall₂_same.mpr (fun x _ => Or.inl rfl))

theorem updateStatesLoop_idPort (cfg : Config) (t : Int) (dialOk : Nat → Bool) (i : Nat)
    (v : List MembershipListItem) :
    (updateStatesLoop cfg t dialOk i v).1.map idPort = v.map idPort := by
  have h := updateStatesLoop_rel cfg t dialOk v i
  generalize (updateStatesLoop cfg t dialOk i v).1 = out at h
  induction h with
  | nil => rfl
  | @cons x y _ _ hxy _ ih =>
    have hy : idPort y = idPort x := by
      rcases hxy with e | e
      · rw [e]
      · rw [e]; rfl
    simp [hy, ih]

theorem ids_eq_of_idPort {v w : List MembershipListItem} (h : v.map idPort = w.map idPort) :
    ids v = ids w := by
  have h2 := congrArg (List.map Prod.fst) h
  simpa [ids, idPort, List.map_map, Function.comp_def] using h2

theorem cleanLoop_eq_filter (v : List MembershipListItem) :
    cleanLoop v = v.filter (fun item => decide (item.State.Status ≠ Delete)) := by
  induction v with
  | nil => rfl
  | cons a rest ih =>
    simp only [cleanLoop, List.filter_cons, ih]
    by_cases h : a.State.Status = Delete <;> simp [h]

/-- What the walk leaves of the incoming sequence is a subsequence of it. -/
theorem mergeWalk_rest_sublist (now : Time) (m2 : List MembershipListItem) :
    ∀ m1 : List MembershipListItem, List.Sublist (mergeWalk now m1 m2).2.2 m2 := by
  induction m2 with
  | nil =>
    intro m1
    cases m1 <;> simp [mergeWalk]
  | cons b rest2 ih =>
    intro m1
    cases m1 with
    | nil => simp [mergeWalk]
    | cons a rest1 =>
      simp only [mergeWalk]
      split_ifs
      · exact (ih rest1).cons b
      · exact (ih (a :: rest1)).cons b

/-- When the incoming sequence has no duplicate ids, what the walk leaves of it carries no
local id: a local id that the walk has passed was matched by an earlier incoming record. -/
theorem mergeWalk_rest_unknown (now : Time) (m2 : List MembershipListItem) :
    ∀ m1 : List MembershipListItem, NoDupIds m2 →
      ∀ x ∈ (mergeWalk now m1 m2).2.2, x.Id ∉ ids m1 := by
  induction m2 with
  | nil =>
    intro m1 _ x hx
    cases m1 <;> simp [mergeWalk] at hx
  | cons b rest2 ih =>
    intro m1 hnd x hx
    have hnd2 : NoDupIds rest2 := (List.nodup_cons.mp hnd).2
    have hb : b.Id ∉ ids rest2 := (List.nodup_cons.mp hnd).1
    cases m1 with
    | nil => simp [ids]
    | cons a rest1 =>
      simp only [mergeWalk] at hx
      split_ifs at hx with h
      · have hx2 : x ∈ rest2 := (mergeWalk_rest_sublist now rest2 rest1).subset hx
        have hne : x.Id ≠ a.Id := fun e => hb (h ▸ e ▸ mem_ids hx2)
        have hrest := ih rest1 hnd2 x hx
        simp only [ids, List.map_cons, List.mem_cons, not_or]
        exact ⟨hne, hrest⟩
      · exact ih (a :: rest1) hnd2 x hx

theorem mergeAdmit_ids_sublist (now : Time) (v : List MembershipListItem) :
    List.Sublist (ids (mergeAdmit now v)) (ids v) := by
  induction v with
  | nil => simp [mergeAdmit, ids]
  | cons b rest ih =>
    simp only [mergeAdmit]
    split_ifs
    · exact ih.cons₂ b.Id
    · exact ih.cons b.Id

theorem Merge_NoDupIds (m1 : MembershipList) (m2 : List MembershipListItem) (now : Time)
    (h1 : NoDupIds m1.items) (h2 : NoDupIds m2) : NoDupIds (m1.Merge now m2).items := by
  show (ids (((mergeWalk now m1.items m2).1 ++ (mergeWalk now m1.items m2).2.1) ++
    mergeAdmit now (mergeWalk now m1.items m2).2.2)).Nodup
  have hsplit : ids (((mergeWalk now m1.items m2).1 ++ (mergeWalk now m1.items m2).2.1) ++
      mergeAdmit now (mergeWalk now m1.items m2).2.2) =
      ids m1.items ++ ids (mergeAdmit now (mergeWalk now m1.items m2).2.2) := by
    rw [← mergeWalk_front_ids now m1.items m2]
    simp [ids]
  rw [hsplit, List.nodup_append]
  refine ⟨h1, ?_, ?_⟩
  · exact ((mergeAdmit_ids_sublist now _).trans
      ((mergeWalk_rest_sublist now m2 m1.items).map _)).nodup h2
  · intro a ha1 ha2
    obtain ⟨x, hx, hxa⟩ := List.mem_map.mp ha2
    obtain ⟨_, r, hr, hid, _⟩ := mem_mergeAdmit now _ x hx
    have := mergeWalk_rest_unknown now m2 m1.items h2 r hr
    exact this (hid ▸ hxa ▸ ha1)

/-- C8: only `Clean` shrinks the view. After `Append`, `UpdateSelfIncarnationNumber`,
`MarkSus`, `MarkLeave`, `UpdateStates` (whether the run completes or is cut short by a
connection that cannot be opened) and `Merge` with any incoming sequence, the view is
at least as long as before and its first `len(before)` records carry the ids and ports of
the records before, in the same order. -/
theorem only_Clean_shrinks (ml : MembershipList) (item : MembershipListItem)
    (nodeId : String) (cfg : Config) (now : Time) (dialOk : Nat → Bool)
    (m2 : List MembershipListItem) :
    Extends ml.items (ml.Append item).1.items ∧
    Extends ml.items (ml.UpdateSelfIncarnationNumber nodeId).items ∧
    Extends ml.items (ml.MarkSus now nodeId).items ∧
    Extends ml.items (ml.MarkLeave now nodeId).items ∧
    Extends ml.items (ml.UpdateStates cfg now dialOk).view.items ∧
    Extends ml.items (ml.Merge now m2).items := by
  refine ⟨Extends.append_right _ _, ?_, ?_, ?_, ?_, ?_⟩
  · exact Extends.of_map_eq (updateSelfIncarnationNumberLoop_idPort nodeId ml.items)
  · exact Extends.of_map_eq (markSusLoop_idPort now nodeId ml.items)
  · exact Extends.of_map_eq (markLeaveLoop_idPort now nodeId ml.items)
  · exact Extends.of_map_eq (updateStatesLoop_idPort cfg (Time.Unix now) dialOk 0 ml.items)
  · have hlen := mergeWalk_front_length now ml.items m2
    have hmap := mergeWalk_front_idPort now ml.items m2
    show Extends ml.items (((mergeWalk now ml.items m2).1 ++ (mergeWalk now ml.items m2).2.1) ++
      mergeAdmit now (mergeWalk now ml.items m2).2.2)
    refine ⟨?_, ?_⟩
    · rw [List.length_append, hlen]; exact Nat.le_add_right _ _
    · rw [List.take_left' hlen, hmap]

/-- C9: unique ids are preserved. If no two records of the local view share an id, then
the merged view has no two records with the same id whenever the incoming sequence has
none (no order is assumed), and so have the views after `MarkSus`, `MarkLeave`,
`UpdateSelfIncarnationNumber`, `Clean` and `UpdateStates`. -/
theorem ops_keep_ids_unique (ml : MembershipList) (m2 : List MembershipListItem)
    (nodeId : String) (cfg : Config) (now : Time) (dialOk : Nat → Bool)
    (h : NoDupIds ml.items) :
    (NoDupIds m2 → NoDupIds (ml.Merge now m2).items) ∧
    NoDupIds (ml.MarkSus now nodeId).items ∧
    NoDupIds (ml.MarkLeave now nodeId).items ∧
    NoDupIds (ml.UpdateSelfIncarnationNumber nodeId).items ∧
    NoDupIds ml.Clean.items ∧
    NoDupIds (ml.UpdateStates cfg now dialOk).view.items := by
  refine ⟨fun h2 => Merge_NoDupIds ml m2 now h h2, ?_, ?_, ?_, ?_, ?_⟩
  · show (ids (markSusLoop now nodeId ml.items)).Nodup
    rw [ids_eq_of_idPort (markSusLoop_idPort now nodeId ml.items)]; exact h
  · show (ids (markLeaveLoop now nodeId ml.items)).Nodup
    rw [ids_eq_of_idPort (markLeaveLoop_idPort now nodeId ml.items)]; exact h
  · show (ids (updateSelfIncarnationNumberLoop nodeId ml.items)).Nodup
    rw [ids_eq_of_idPort (updateSelfIncarnationNumberLoop_idPort nodeId ml.items)]; exact h
  · show (ids (cleanLoop ml.items)).Nodup
    rw [cleanLoop_eq_filter]
    exact (List.Sublist.map _ (List.filter_sublist _)).nodup h
  · show (ids (updateStatesLoop cfg (Time.Unix now) dialOk 0 ml.items).1).Nodup
    rw [ids_eq_of_idPort (updateStatesLoop_idPort cfg (Time.Unix now) dialOk 0 ml.items)]
    exact h

/-- Witness of C9: the local view `[n2, n1]` and the incoming sequence `[n1, n3, n2]`, both
without duplicate ids and in different orders, merge into a view without duplicate ids. -/
theorem ops_keep_ids_unique_witness :
    NoDupIds [MembershipListItem.mk "n2" ⟨Alive, 5⟩ 0 8000, ⟨"n1", ⟨Suspicious, 5⟩, 0, 8000⟩] ∧
    NoDupIds [MembershipListItem.mk "n1" ⟨Alive, 5⟩ 0 8000, ⟨"n3", ⟨Alive, 5⟩, 0, 8000⟩,
      ⟨"n2", ⟨Failed, 5⟩, 0, 8000⟩] ∧
    NoDupIds (MembershipList.Merge
      ⟨[⟨"n2", ⟨Alive, 5⟩, 0, 8000⟩, ⟨"n1", ⟨Suspicious, 5⟩, 0, 8000⟩]⟩ 99
      [⟨"n1", ⟨Alive, 5⟩, 0, 8000⟩, ⟨"n3", ⟨Alive, 5⟩, 0, 8000⟩,
        ⟨"n2", ⟨Failed, 5⟩, 0, 8000⟩]).items :=
  ⟨by unfold NoDupIds; decide, by unfold NoDupIds; decide,
    (ops_keep_ids_unique
      ⟨[⟨"n2", ⟨Alive, 5⟩, 0, 8000⟩, ⟨"n1", ⟨Suspicious, 5⟩, 0, 8000⟩]⟩
      [⟨"n1", ⟨Alive, 5⟩, 0, 8000⟩, ⟨"n3", ⟨Alive, 5⟩, 0, 8000⟩, ⟨"n2", ⟨Failed, 5⟩, 0, 8000⟩]
      "n1" (defaultTimeouts (fun _ => "")) 99 (fun _ => true) (by unfold NoDupIds; decide)).1
      (by unfold NoDupIds; decide)⟩

/-- C10: `Clean` is the order-preserving filter on status different from `Delete`. The view
after `Clean` is the list of the records whose status is not `Delete`, each unchanged and
in the original order; so it is a subsequence of the view before, none of its records has
status `Delete`, and every record of the view before that is not `Delete` is in it. -/
theorem Clean_is_filter (ml : MembershipList) :
    ml.Clean.items = ml.items.filter (fun item => decide (item.State.Status ≠ Delete)) ∧
    List.Sublist ml.Clean.items ml.items ∧
    (∀ x ∈ ml.Clean.items, x.State.Status ≠ Delete) ∧
    (∀ x ∈ ml.items, x.State.Status ≠ Delete → x ∈ ml.Clean.items) := by
  have hf : ml.Clean.items = ml.items.filter (fun item => decide (item.State.Status ≠ Delete)) :=
    cleanLoop_eq_filter ml.items
  refine ⟨hf, ?_, ?_, ?_⟩
  · rw [hf]; exact List.filter_sublist _
  · intro x hx
    rw [hf] at hx
    simpa using (List.mem_filter.mp hx).2
  · intro x hx hne
    rw [hf]
    exact List.mem_filter.mpr ⟨hx, by simpa using hne⟩

/-- Witness of C10: the view `[A Delete, B Alive, C Delete]` becomes `[B Alive]`. -/
theorem Clean_is_filter_witness :
    (MembershipList.Clean ⟨[⟨"A", ⟨Delete, 5⟩, 0, 8000⟩, ⟨"B", ⟨Alive, 6⟩, 1, 8001⟩,
      ⟨"C", ⟨Delete, 7⟩, 2, 8002⟩]⟩).items = [⟨"B", ⟨Alive, 6⟩, 1, 8001⟩] :=
  (Clean_is_filter ⟨[⟨"A", ⟨Delete, 5⟩, 0, 8000⟩, ⟨"B", ⟨Alive, 6⟩, 1, 8001⟩,
    ⟨"C", ⟨Delete, 7⟩, 2, 8002⟩]⟩).1.trans (by decide)

/-! ## MarkSus and MarkLeave -/

theorem markSusLoop_of_none (now : Time) (nodeId : String) (v : List MembershipListItem)
    (h : ∀ y ∈ v, ¬ (y.Id = nodeId ∧ y.State.Status = Alive)) :
    markSusLoop now nodeId v = v := by
  induction v with
  | nil => rfl
  | cons a rest ih =>
    simp only [markSusLoop]
    rw [if_neg (h a (List.mem_cons_self _ _)),
      ih (fun y hy => h y (List.mem_cons_of_mem _ hy))]

theorem markSusLoop_of_split (now : Time) (nodeId : String)
    (pre : List MembershipListItem) (x : MembershipListItem) (post : List MembershipListItem)
    (hpre : ∀ y ∈ pre, ¬ (y.Id = nodeId ∧ y.State.Status = Alive))
    (hx : x.Id = nodeId ∧ x.State.Status = Alive) :
    markSusLoop now nodeId (pre ++ x :: post) =
      pre ++ { x with State := { Status := Suspicious, Timestamp := now } } :: post := by
  induction pre with
  | nil => simp only [List.nil_append, markSusLoop]; rw [if_pos hx]
  | cons a rest ih =>
    show markSusLoop now nodeId (a :: (rest ++ x :: post)) = a :: (rest ++ _ :: post)
    rw [markSusLoop, if_neg (hpre a (List.mem_cons_self _ _)),
      ih (fun y hy => hpre y (List.mem_cons_of_mem _ hy))]

theorem markSusLoop_keeps (now : Time) (nodeId : String) (v : List MembershipListItem) :
    ∀ (k : Nat) (x : MembershipListItem), v[k]? = some x → x.State.Status ≠ Alive →
      (markSusLoop now nodeId v)[k]? = some x := by
  induction v with
  | nil => intro k x hk; simp at hk
  | cons a rest ih =>
    intro k x hk hne
    simp only [markSusLoop]
    cases k with
    | zero =>
      simp only [List.getElem?_cons_zero, Option.some.injEq] at hk
      subst hk
      rw [if_neg (fun h => hne h.2)]
      simp
    | succ n =>
      simp only [List.getElem?_cons_succ] at hk
      split_ifs
      · simpa using hk
      · simpa using ih n x hk hne

/-- First position in a list at which a decidable property holds. -/
theorem exists_first_split {α : Type} (p : α → Prop) [DecidablePred p] (v : List α)
    (h : ∃ y ∈ v, p y) :
    ∃ pre x post, v = pre ++ x :: post ∧ (∀ y ∈ pre, ¬ p y) ∧ p x := by
  induction v with
  | nil => obtain ⟨y, hy, _⟩ := h; simp at hy
  | cons a rest ih =>
    by_cases ha : p a
    · exact ⟨[], a, rest, rfl, by simp, ha⟩
    · obtain ⟨y, hy, hpy⟩ := h
      have hrest : ∃ y ∈ rest, p y := by
        rcases List.mem_cons.mp hy with e | e
        · exact absurd (e ▸ hpy) ha
        · exact ⟨y, e, hpy⟩
      obtain ⟨pre, x, post, hv, hpre, hx⟩ := ih hrest
      refine ⟨a :: pre, x, post, by simp [hv], ?_, hx⟩
      intro z hz
      rcases List.mem_cons.mp hz with e | e
      · exact e ▸ ha
      · exact hpre z e

/-- C11: `MarkSus` acts only on an `Alive` record. Either no record has the given id with
status `Alive` and the view is unchanged, or the view splits at the first such record and
only that record changes: it gets status `Suspicious` and timestamp `now`, with its id,
incarnation number and port as before. A record whose status is not `Alive` stays at its
position with every field unchanged, and when the id is absent the view is unchanged. -/
theorem MarkSus_only_first_alive (ml : MembershipList) (now : Time) (nodeId : String) :
    (((∀ y ∈ ml.items, ¬ (y.Id = nodeId ∧ y.State.Status = Alive)) ∧
        (ml.MarkSus now nodeId).items = ml.items) ∨
      ∃ pre x post, ml.items = pre ++ x :: post ∧
        (∀ y ∈ pre, ¬ (y.Id = nodeId ∧ y.State.Status = Alive)) ∧
        x.Id = nodeId ∧ x.State.Status = Alive ∧
        (ml.MarkSus now nodeId).items =
          pre ++ { Id := x.Id, State := { Status := Suspicious, Timestamp := now },
                   IncarnationNumber := x.IncarnationNumber, UDPPort := x.UDPPort } :: post) ∧
    (∀ (k : Nat) (x : MembershipListItem), ml.items[k]? = some x → x.State.Status ≠ Alive →
      (ml.MarkSus now nodeId).items[k]? = some x) ∧
    (nodeId ∉ ids ml.items → (ml.MarkSus now nodeId).items = ml.items) := by
  refine ⟨?_, ?_, ?_⟩
  · by_cases h : ∃ y ∈ ml.items, y.Id = nodeId ∧ y.State.Status = Alive
    · obtain ⟨pre, x, post, hv, hpre, hx⟩ :=
        exists_first_split (fun y => y.Id = nodeId ∧ y.State.Status = Alive) ml.items h
      refine Or.inr ⟨pre, x, post, hv, hpre, hx.1, hx.2, ?_⟩
      show markSusLoop now nodeId ml.items = _
      rw [hv, markSusLoop_of_split now nodeId pre x post hpre hx]
    · have h2 : ∀ y ∈ ml.items, ¬ (y.Id = nodeId ∧ y.State.Status = Alive) :=
        fun y hy hc => h ⟨y, hy, hc⟩
      exact Or.inl ⟨h2, markSusLoop_of_none now nodeId ml.items h2⟩
  · exact markSusLoop_keeps now nodeId ml.items
  · intro hid
    exact markSusLoop_of_none now nodeId ml.items
      (fun y hy hc => hid (hc.1 ▸ mem_ids hy))

/-- Witness of C11: in `[n1 Suspicious, n1 Alive, n2 Alive]` the call `MarkSus(n1)` changes
the second record only, and the `Suspicious` record at position 0 is as before. -/
theorem MarkSus_only_first_alive_witness :
    (MembershipList.MarkSus ⟨[⟨"n1", ⟨Suspicious, 5⟩, 1, 8000⟩, ⟨"n1", ⟨Alive, 6⟩, 2, 8001⟩,
        ⟨"n2", ⟨Alive, 7⟩, 3, 8002⟩]⟩ 99 "n1").items =
      [⟨"n1", ⟨Suspicious, 5⟩, 1, 8000⟩, ⟨"n1", ⟨Suspicious, 99⟩, 2, 8001⟩,
        ⟨"n2", ⟨Alive, 7⟩, 3, 8002⟩] ∧
    (MembershipList.MarkSus ⟨[⟨"n1", ⟨Suspicious, 5⟩, 1, 8000⟩, ⟨"n1", ⟨Alive, 6⟩, 2, 8001⟩,
        ⟨"n2", ⟨Alive, 7⟩, 3, 8002⟩]⟩ 99 "n1").items[0]? =
      some ⟨"n1", ⟨Suspicious, 5⟩, 1, 8000⟩ :=
  ⟨by decide,
    (MarkSus_only_first_alive ⟨[⟨"n1", ⟨Suspicious, 5⟩, 1, 8000⟩, ⟨"n1", ⟨Alive, 6⟩, 2, 8001⟩,
        ⟨"n2", ⟨Alive, 7⟩, 3, 8002⟩]⟩ 99 "n1").2.1 0 ⟨"n1", ⟨Suspicious, 5⟩, 1, 8000⟩ rfl
      (by decide)⟩

theorem markLeaveLoop_of_none (now : Time) (nodeId : String) (v : List MembershipListItem)
    (h : ∀ y ∈ v, y.Id ≠ nodeId) : markLeaveLoop now nodeId v = v := by
  induction v with
  | nil => rfl
  | cons a rest ih =>
    rw [markLeaveLoop, if_neg (h a (List.mem_cons_self _ _)),
      ih (fun y hy => h y (List.mem_cons_of_mem _ hy))]

theorem markLeaveLoop_of_split (now : Time) (nodeId : String)
    (pre : List MembershipListItem) (x : MembershipListItem) (post : List MembershipListItem)
    (hpre : ∀ y ∈ pre, y.Id ≠ nodeId) (hx : x.Id = nodeId) :
    markLeaveLoop now nodeId (pre ++ x :: post) =
      pre ++ { x with State := { Status := Left, Timestamp := now } } :: post := by
  induction pre with
  | nil => simp only [List.nil_append, markLeaveLoop]; rw [if_pos hx]
  | cons a rest ih =>
    show markLeaveLoop now nodeId (a :: (rest ++ x :: post)) = a :: (rest ++ _ :: post)
    rw [markLeaveLoop, if_neg (hpre a (List.mem_cons_self _ _)),
      ih (fun y hy => hpre y (List.mem_cons_of_mem _ hy))]

/-- C12: `MarkLeave` is unconditional. Either no record has the given id and the view is
unchanged, or the view splits at the first record with that id and only that record
changes: whatever its status was, it gets status `Left` and timestamp `now`, with its id,
incarnation number and port as before; every other record is as before. -/
theorem MarkLeave_unconditional (ml : MembershipList) (now : Time) (nodeId : String) :
    ((∀ y ∈ ml.items, y.Id ≠ nodeId) ∧ (ml.MarkLeave now nodeId).items = ml.items) ∨
    ∃ pre x post, ml.items = pre ++ x :: post ∧ (∀ y ∈ pre, y.Id ≠ nodeId) ∧ x.Id = nodeId ∧
      (ml.MarkLeave now nodeId).items =
        pre ++ { Id := x.Id, State := { Status := Left, Timestamp := now },
                 IncarnationNumber := x.IncarnationNumber, UDPPort := x.UDPPort } :: post := by
  by_cases h : ∃ y ∈ ml.items, y.Id = nodeId
  · obtain ⟨pre, x, post, hv, hpre, hx⟩ :=
      exists_first_split (fun y => y.Id = nodeId) ml.items h
    refine Or.inr ⟨pre, x, post, hv, hpre, hx, ?_⟩
    show markLeaveLoop now nodeId ml.items = _
    rw [hv, markLeaveLoop_of_split now nodeId pre x post hpre hx]
  · have h2 : ∀ y ∈ ml.items, y.Id ≠ nodeId := fun y hy hc => h ⟨y, hy, hc⟩
    exact Or.inl ⟨h2, markLeaveLoop_of_none now nodeId ml.items h2⟩

/-! ## UpdateSelfIncarnationNumber -/

theorem wrapInt_succ (n : Int) (hlo : minInt ≤ n) (hhi : n < maxInt) :
    wrapInt (n + 1) = n + 1 := by
  unfold minInt at hlo
  unfold maxInt at hhi
  unfold wrapInt
  omega

theorem updateSelfIncarnationNumberLoop_of_none (myId : String)
    (v : List MembershipListItem) (h : ∀ y ∈ v, y.Id ≠ myId) :
    updateSelfIncarnationNumberLoop myId v = v := by
  induction v with
  | nil => rfl
  | cons a rest ih =>
    rw [updateSelfIncarnationNumberLoop, if_neg (h a (List.mem_cons_self _ _)),
      ih (fun y hy => h y (List.mem_cons_of_mem _ hy))]

theorem updateSelfIncarnationNumberLoop_of_split (myId : String)
    (pre : List MembershipListItem) (x : MembershipListItem) (post : List MembershipListItem)
    (hpre : ∀ y ∈ pre, y.Id ≠ myId) (hx : x.Id = myId) :
    updateSelfIncarnationNumberLoop myId (pre ++ x :: post) =
      pre ++ { x with IncarnationNumber := wrapInt (x.IncarnationNumber + 1) } :: post := by
  induction pre with
  | nil => simp only [List.nil_append, updateSelfIncarnationNumberLoop]; rw [if_pos hx]
  | cons a rest ih =>
    show updateSelfIncarnationNumberLoop myId (a :: (rest ++ x :: post)) =
      a :: (rest ++ _ :: post)
    rw [updateSelfIncarnationNumberLoop, if_neg (hpre a (List.mem_cons_self _ _)),
      ih (fun y hy => hpre y (List.mem_cons_of_mem _ hy))]

/-- C13 as stated fails: a record whose incarnation number is the largest `int` comes out
of `UpdateSelfIncarnationNumber` with the smallest `int`, not with its old value plus 1. -/
theorem UpdateSelfIncarnationNumber_wraps :
    (MembershipList.UpdateSelfIncarnationNumber
        ⟨[⟨"n1", ⟨Alive, 5⟩, 9223372036854775807, 8000⟩]⟩ "n1").items =
      [⟨"n1", ⟨Alive, 5⟩, -9223372036854775808, 8000⟩] ∧
    (-9223372036854775808 : Int) ≠ 9223372036854775807 + 1 := by
  decide

/-- C13, amended: `UpdateSelfIncarnationNumber` bumps by one in 64-bit arithmetic. If no
record has the given id the view is unchanged. Otherwise the view splits at the first
record with that id and only that record changes, in its incarnation number only: the new
number is the old value plus 1 when the old value is an `int` below the largest one, and
the smallest `int` when the old value is the largest one. -/
theorem UpdateSelfIncarnationNumber_bumps (ml : MembershipList) (myId : String) :
    ((∀ y ∈ ml.items, y.Id ≠ myId) → (ml.UpdateSelfIncarnationNumber myId).items = ml.items) ∧
    (∀ pre x post, ml.items = pre ++ x :: post → (∀ y ∈ pre, y.Id ≠ myId) → x.Id = myId →
      (minInt ≤ x.IncarnationNumber → x.IncarnationNumber < maxInt →
        (ml.UpdateSelfIncarnationNumber myId).items =
          pre ++ { Id := x.Id, State := x.State,
                   IncarnationNumber := x.IncarnationNumber + 1, UDPPort := x.UDPPort } :: post) ∧
      (x.IncarnationNumber = maxInt →
        (ml.UpdateSelfIncarnationNumber myId).items =
          pre ++ { Id := x.Id, State := x.State,
                   IncarnationNumber := minInt, UDPPort := x.UDPPort } :: post)) ∧
    ((∃ y ∈ ml.items, y.Id = myId) →
      ∃ pre x post, ml.items = pre ++ x :: post ∧ (∀ y ∈ pre, y.Id ≠ myId) ∧ x.Id = myId) := by
  refine ⟨updateSelfIncarnationNumberLoop_of_none myId ml.items, ?_, ?_⟩
  · intro pre x post hv hpre hx
    have hres : (ml.UpdateSelfIncarnationNumber myId).items =
        pre ++ { x with IncarnationNumber := wrapInt (x.IncarnationNumber + 1) } :: post := by
      show updateSelfIncarnationNumberLoop myId ml.items = _
      rw [hv, updateSelfIncarnationNumberLoop_of_split myId pre x post hpre hx]
    constructor
    · intro hlo hhi
      rw [hres, wrapInt_succ _ hlo hhi]
    · intro hmax
      have hw : wrapInt (x.IncarnationNumber + 1) = minInt := by
        rw [hmax]; decide
      rw [hres, hw]
  · intro h
    exact exists_first_split (fun y => y.Id = myId) ml.items h

/-- Witness of C13: in `[n2, n1 with incarnation 4, n1 with incarnation 7]` the call for
`n1` raises the incarnation number of the record at position 1 from 4 to 5. -/
theorem UpdateSelfIncarnationNumber_bumps_witness :
    (MembershipList.UpdateSelfIncarnationNumber
      ⟨[⟨"n2", ⟨Alive, 5⟩, 1, 8000⟩, ⟨"n1", ⟨Suspicious, 6⟩, 4, 8001⟩,
        ⟨"n1", ⟨Alive, 7⟩, 7, 8002⟩]⟩ "n1").items =
      [⟨"n2", ⟨Alive, 5⟩, 1, 8000⟩, ⟨"n1", ⟨Suspicious, 6⟩, 5, 8001⟩,
        ⟨"n1", ⟨Alive, 7⟩, 7, 8002⟩] :=
  ((UpdateSelfIncarnationNumber_bumps
      ⟨[⟨"n2", ⟨Alive, 5⟩, 1, 8000⟩, ⟨"n1", ⟨Suspicious, 6⟩, 4, 8001⟩,
        ⟨"n1", ⟨Alive, 7⟩, 7, 8002⟩]⟩ "n1").2.1
    [⟨"n2", ⟨Alive, 5⟩, 1, 8000⟩] ⟨"n1", ⟨Suspicious, 6⟩, 4, 8001⟩ [⟨"n1", ⟨Alive, 7⟩, 7, 8002⟩]
    rfl (by decide) rfl).1 (by decide) (by decide)

/-! ## UpdateStates: the aging pass -/

theorem withStatus_self (x : MembershipListItem) : withStatus x.State.Status x = x := rfl

theorem wrapInt_of_range (d : Int) (hlo : minInt ≤ d) (hhi : d ≤ maxInt) : wrapInt d = d := by
  unfold minInt at hlo
  unfold maxInt at hhi
  unfold wrapInt
  omega

theorem wrapInt_le (d : Int) (hlo : minInt ≤ d) : wrapInt d ≤ d := by
  unfold minInt at hlo
  unfold wrapInt
  omega

theorem updateStatesItem_sent (cfg : Config) (t : Int) (d : Bool) (x : MembershipListItem)
    (hok : (updateStatesItem cfg t d x).2.2 = true) :
    (updateStatesItem cfg t d x).2.1 =
      if x.State.Status = Suspicious ∧
          wrapInt (t - Time.Unix x.State.Timestamp) ≥ cfg.T_FAIL then
        [generateFailedBuffer cfg x.Id]
      else [] := by
  unfold updateStatesItem at hok ⊢
  by_cases h1 : x.State.Status = Suspicious ∧
      wrapInt (t - Time.Unix x.State.Timestamp) ≥ cfg.T_FAIL
  · rw [if_pos h1] at hok ⊢
    rw [if_pos h1]
    cases d
    · simp at hok
    · rfl
  · rw [if_neg h1, if_neg h1]
    split_ifs <;> rfl

/-- A loop that runs to its end ages every item and sends one message for each item it
fails, in order. -/
theorem updateStatesLoop_completed (cfg : Config) (t : Int) (dialOk : Nat → Bool)
    (v : List MembershipListItem) :
    ∀ i : Nat, (updateStatesLoop cfg t dialOk i v).2.2 = true →
      (updateStatesLoop cfg t dialOk i v).1 =
        v.map (fun x => withStatus
          (agingRule cfg (wrapInt (t - Time.Unix x.State.Timestamp)) x.State.Status) x) ∧
      (updateStatesLoop cfg t dialOk i v).2.1 =
        (v.filter (fun x => decide (x.State.Status = Suspicious ∧
          wrapInt (t - Time.Unix x.State.Timestamp) ≥ cfg.T_FAIL))).map
          (fun x => generateFailedBuffer cfg x.Id) := by
  induction v with
  | nil => intro i _; simp [updateStatesLoop]
  | cons a rest ih =>
    intro i hok
    simp only [updateStatesLoop] at hok ⊢
    by_cases hc : (updateStatesItem cfg t (dialOk i) a).2.2 = true
    · rw [if_pos hc] at hok ⊢
      obtain ⟨h1, h2⟩ := ih (i + 1) hok
      refine ⟨?_, ?_⟩
      · simp only [List.map_cons, updateStatesItem_fst, h1]
      · simp only [updateStatesItem_sent cfg t (dialOk i) a hc, h2, List.filter_cons]
        by_cases h : a.State.Status = Suspicious ∧
            wrapInt (t - Time.Unix a.State.Timestamp) ≥ cfg.T_FAIL
        · simp [h]
        · simp [h]
    · rw [if_neg hc] at hok
      simp at hok

/-- In every run, completed or cut short, a record comes out at its own position either as
it was or with the status the aging rule gives it. -/
theorem UpdateStates_getElem?_cases (ml : MembershipList) (cfg : Config) (now : Time)
    (dialOk : Nat → Bool) (k : Nat) (x : MembershipListItem) (hx : ml.items[k]? = some x) :
    (ml.UpdateStates cfg now dialOk).view.items[k]? = some x ∨
    (ml.UpdateStates cfg now dialOk).view.items[k]? =
      some (withStatus (agingRule cfg (elapsedInt64 now x) x.State.Status) x) := by
  obtain ⟨hk1, hkl⟩ := List.getElem?_eq_some.mp hx
  have h := List.forall₂_iff_get.mp (updateStatesLoop_rel cfg (Time.Unix now) dialOk ml.items 0)
  have hk2 : k < (updateStatesLoop cfg (Time.Unix now) dialOk 0 ml.items).1.length := by
    rw [← h.1]; exact hk1
  have hR := h.2 k hk1 hk2
  simp only [List.get_eq_getElem] at hR
  rw [hkl] at hR
  show (updateStatesLoop cfg (Time.Unix now) dialOk 0 ml.items).1[k]? = some x ∨
    (updateStatesLoop cfg (Time.Unix now) dialOk 0 ml.items).1[k]? = _
  rw [List.getElem?_eq_getElem hk2]
  rcases hR with e | e
  · exact Or.inl (congrArg some e)
  · exact Or.inr (congrArg some e)

theorem updateStatesLoop_idIncPort (cfg : Config) (t : Int) (dialOk : Nat → Bool) (i : Nat)
    (v : List MembershipListItem) :
    (updateStatesLoop cfg t dialOk i v).1.map idIncPort = v.map idIncPort := by
  have h := updateStatesLoop_rel cfg t dialOk v i
  generalize (updateStatesLoop cfg t dialOk i v).1 = out at h
  induction h with
  | nil => rfl
  | @cons x y _ _ hxy _ ih =>
    have hy : idIncPort y = idIncPort x := by
      rcases hxy with e | e
      · rw [e]
      · rw [e]; rfl
    simp [hy, ih]

theorem UpdateStates_idIncPort (ml : MembershipList) (cfg : Config) (now : Time)
    (dialOk : Nat → Bool) :
    (ml.UpdateStates cfg now dialOk).view.items.map idIncPort = ml.items.map idIncPort :=
  updateStatesLoop_idIncPort cfg (Time.Unix now) dialOk 0 ml.items

theorem UpdateStates_completed (ml : MembershipList) (cfg : Config) (now : Time)
    (dialOk : Nat → Bool) (hok : (ml.UpdateStates cfg now dialOk).completed = true) :
    (ml.UpdateStates cfg now dialOk).view.items =
      ml.items.map (fun x =>
        withStatus (agingRule cfg (elapsedInt64 now x) x.State.Status) x) ∧
    (ml.UpdateStates cfg now dialOk).sent =
      (ml.items.filter (fun x => decide (failsNow cfg now x))).map
        (fun x => generateFailedBuffer cfg x.Id) :=
  updateStatesLoop_completed cfg (Time.Unix now) dialOk ml.items 0 hok

theorem agingRule_of_stable (cfg : Config) (e : Int) (s : NodeStatus)
    (hs : s ≠ Suspicious) (hf : s ≠ Failed) (hl : s ≠ Left) : agingRule cfg e s = s := by
  unfold agingRule
  rw [if_neg (fun h => hs h.1), if_neg (fun h => h.elim (fun h => hf h.1) (fun h => hl h.1))]

theorem agingRule_suspicious (cfg : Config) (e : Int) :
    agingRule cfg e Suspicious = if e ≥ cfg.T_FAIL then Failed else Suspicious := by
  unfold agingRule
  by_cases h : e ≥ cfg.T_FAIL
  · rw [if_pos ⟨rfl, h⟩, if_pos h]
  · rw [if_neg (fun c => h c.2), if_neg h, if_neg]
    rintro (c | c)
    · exact absurd c.1 (by decide)
    · exact absurd c.1 (by decide)

/-- C14 as stated fails: the two second counts are subtracted as `int64`. With the timeouts
of the source and a clock in 2023, a record that is `Suspicious` since second `-2^63` has
an elapsed time far above `T_FAIL`, yet the wrapped difference is negative and a completed
pass leaves the record `Suspicious`. -/
theorem UpdateStates_wraps_elapsed :
    (MembershipList.UpdateStates
      ⟨[⟨"n1", ⟨Suspicious, -9223372036854775808000000000⟩, 0, 8000⟩]⟩
      (defaultTimeouts (fun _ => "")) 1700000000000000000 (fun _ => true)).view.items =
      [⟨"n1", ⟨Suspicious, -9223372036854775808000000000⟩, 0, 8000⟩] ∧
    (MembershipList.UpdateStates
      ⟨[⟨"n1", ⟨Suspicious, -9223372036854775808000000000⟩, 0, 8000⟩]⟩
      (defaultTimeouts (fun _ => "")) 1700000000000000000 (fun _ => true)).completed = true ∧
    elapsedSeconds 1700000000000000000
      ⟨"n1", ⟨Suspicious, -9223372036854775808000000000⟩, 0, 8000⟩ ≥
      (defaultTimeouts (fun _ => "")).T_FAIL := by
  decide

/-- C14, amended: the aging transition function of a pass that runs to its end. After an
`UpdateStates` pass that completes, the view is the old view with every record's status
replaced by the aging rule (`Failed` for `Suspicious` with elapsed at least `T_FAIL`,
`Delete` for `Failed` with elapsed at least `T_DELETE` or `Left` with elapsed at least
`T_LEAVE`, the old status otherwise), where elapsed is the `int64` difference of the whole
seconds of `now` and of the record's timestamp; it is the plain difference whenever that
fits in 64 bits. In every pass, completed or not, `Alive` and `Delete` records do not
change, a `Suspicious` record whose timestamp is `now` does not change when `T_FAIL` is at
least 1, a `Suspicious` record is never `Delete` afterwards, and the length and the ids,
incarnation numbers and ports in order are as before. -/
theorem UpdateStates_transition (ml : MembershipList) (cfg : Config) (now : Time)
    (dialOk : Nat → Bool) :
    ((ml.UpdateStates cfg now dialOk).completed = true →
      (ml.UpdateStates cfg now dialOk).view.items =
        ml.items.map (fun x =>
          withStatus (agingRule cfg (elapsedInt64 now x) x.State.Status) x)) ∧
    (∀ x : MembershipListItem, minInt ≤ elapsedSeconds now x → elapsedSeconds now x ≤ maxInt →
      elapsedInt64 now x = elapsedSeconds now x) ∧
    (∀ (k : Nat) (x : MembershipListItem), ml.items[k]? = some x →
      (x.State.Status = Alive ∨ x.State.Status = Delete) →
      (ml.UpdateStates cfg now dialOk).view.items[k]? = some x) ∧
    (∀ (k : Nat) (x : MembershipListItem), ml.items[k]? = some x →
      x.State.Status = Suspicious → x.State.Timestamp = now → 1 ≤ cfg.T_FAIL →
      (ml.UpdateStates cfg now dialOk).view.items[k]? = some x) ∧
    (∀ (k : Nat) (x y : MembershipListItem), ml.items[k]? = some x →
      (ml.UpdateStates cfg now dialOk).view.items[k]? = some y →
      x.State.Status = Suspicious → y.State.Status ≠ Delete) ∧
    (ml.UpdateStates cfg now dialOk).view.items.length = ml.items.length ∧
    (ml.UpdateStates cfg now dialOk).view.items.map idIncPort = ml.items.map idIncPort := by
  refine ⟨fun hok => (UpdateStates_completed ml cfg now dialOk hok).1,
    fun x hlo hhi => wrapInt_of_range _ hlo hhi, ?_, ?_, ?_, ?_,
    UpdateStates_idIncPort ml cfg now dialOk⟩
  · intro k x hk hs
    have hst : agingRule cfg (elapsedInt64 now x) x.State.Status = x.State.Status := by
      apply agingRule_of_stable <;> rcases hs with h | h <;> rw [h] <;> decide
    rcases UpdateStates_getElem?_cases ml cfg now dialOk k x hk with h | h
    · exact h
    · rw [h, hst, withStatus_self]
  · intro k x hk hs hts hT
    have he : elapsedInt64 now x = 0 := by
      unfold elapsedInt64 elapsedSeconds; rw [hts, sub_self]; rfl
    have hst : agingRule cfg (elapsedInt64 now x) x.State.Status = x.State.Status := by
      rw [he, hs, agingRule_suspicious, if_neg (by omega)]
    rcases UpdateStates_getElem?_cases ml cfg now dialOk k x hk with h | h
    · exact h
    · rw [h, hst, withStatus_self]
  · intro k x y hk hy hs
    rcases UpdateStates_getElem?_cases ml cfg now dialOk k x hk with h | h
    · rw [h, Option.some.injEq] at hy
      rw [← hy, hs]; decide
    · rw [h, Option.some.injEq] at hy
      rw [← hy, hs]
      show agingRule cfg (elapsedInt64 now x) Suspicious ≠ Delete
      rw [agingRule_suspicious]
      split_ifs <;> decide
  · have h := congrArg List.length (UpdateStates_idIncPort ml cfg now dialOk)
    simpa using h

/-- Witness of C14: with the timeouts of the source, every connection opened and `now` at
10 seconds, the view `[Suspicious since 2 s, Suspicious since 10 s, Failed since 2 s, Left
since 9 s, Alive]` ages into `[Failed, Suspicious, Delete, Left, Alive]`, and the `Alive`
record at position 4 is unchanged. -/
theorem UpdateStates_transition_witness :
    (MembershipList.UpdateStates
      ⟨[⟨"n1", ⟨Suspicious, 2000000000⟩, 0, 8000⟩, ⟨"n2", ⟨Suspicious, 10000000000⟩, 0, 8000⟩,
        ⟨"n3", ⟨Failed, 2000000000⟩, 0, 8000⟩, ⟨"n4", ⟨Left, 9000000000⟩, 0, 8000⟩,
        ⟨"n5", ⟨Alive, 0⟩, 0, 8000⟩]⟩
      (defaultTimeouts (fun _ => "")) 10000000000 (fun _ => true)).completed = true ∧
    (MembershipList.UpdateStates
      ⟨[⟨"n1", ⟨Suspicious, 2000000000⟩, 0, 8000⟩, ⟨"n2", ⟨Suspicious, 10000000000⟩, 0, 8000⟩,
        ⟨"n3", ⟨Failed, 2000000000⟩, 0, 8000⟩, ⟨"n4", ⟨Left, 9000000000⟩, 0, 8000⟩,
        ⟨"n5", ⟨Alive, 0⟩, 0, 8000⟩]⟩
      (defaultTimeouts (fun _ => "")) 10000000000 (fun _ => true)).view.items =
      [⟨"n1", ⟨Failed, 2000000000⟩, 0, 8000⟩, ⟨"n2", ⟨Suspicious, 10000000000⟩, 0, 8000⟩,
        ⟨"n3", ⟨Delete, 2000000000⟩, 0, 8000⟩, ⟨"n4", ⟨Left, 9000000000⟩, 0, 8000⟩,
        ⟨"n5", ⟨Alive, 0⟩, 0, 8000⟩] ∧
    (MembershipList.UpdateStates
      ⟨[⟨"n1", ⟨Suspicious, 2000000000⟩, 0, 8000⟩, ⟨"n2", ⟨Suspicious, 10000000000⟩, 0, 8000⟩,
        ⟨"n3", ⟨Failed, 2000000000⟩, 0, 8000⟩, ⟨"n4", ⟨Left, 9000000000⟩, 0, 8000⟩,
        ⟨"n5", ⟨Alive, 0⟩, 0, 8000⟩]⟩
      (defaultTimeouts (fun _ => "")) 10000000000 (fun _ => true)).view.items[4]? =
      some ⟨"n5", ⟨Alive, 0⟩, 0, 8000⟩ :=
  ⟨by decide,
    ((UpdateStates_transition _ (defaultTimeouts (fun _ => "")) 10000000000
      (fun _ => true)).1 (by decide)).trans (by decide),
    (UpdateStates_transition
      ⟨[⟨"n1", ⟨Suspicious, 2000000000⟩, 0, 8000⟩, ⟨"n2", ⟨Suspicious, 10000000000⟩, 0, 8000⟩,
        ⟨"n3", ⟨Failed, 2000000000⟩, 0, 8000⟩, ⟨"n4", ⟨Left, 9000000000⟩, 0, 8000⟩,
        ⟨"n5", ⟨Alive, 0⟩, 0, 8000⟩]⟩
      (defaultTimeouts (fun _ => "")) 10000000000 (fun _ => true)).2.2.1 4
      ⟨"n5", ⟨Alive, 0⟩, 0, 8000⟩ rfl (Or.inl rfl)⟩

/-- C15, evaluated at a failing input. With the timeouts of the source, every connection
opened and `now` at 5 seconds, a record that is `Suspicious` since second 0 is moved to
`Failed` and keeps the timestamp 0: the timestamp is not set to `now`. A second pass at the
same `now` then moves it on to `Delete`, although it has been `Failed` for no time at
all. -/
theorem UpdateStates_keeps_timestamp_on_failure :
    (MembershipList.UpdateStates ⟨[⟨"n1", ⟨Suspicious, 0⟩, 0, 8000⟩]⟩
      (defaultTimeouts (fun _ => "")) 5000000000 (fun _ => true)).view.items =
      [⟨"n1", ⟨Failed, 0⟩, 0, 8000⟩] ∧
    (0 : Time) ≠ 5000000000 ∧
    (MembershipList.UpdateStates
      (MembershipList.UpdateStates ⟨[⟨"n1", ⟨Suspicious, 0⟩, 0, 8000⟩]⟩
        (defaultTimeouts (fun _ => "")) 5000000000 (fun _ => true)).view
      (defaultTimeouts (fun _ => "")) 5000000000 (fun _ => true)).view.items =
      [⟨"n1", ⟨Delete, 0⟩, 0, 8000⟩] := by
  decide

/-- C16 as stated fails: with `T_DELETE` of 1 second, a record that is `Failed` since 0.9 s
is moved to `Delete` by a pass at 1.1 s, because the two whole-second counts are 0 and 1;
the time that has really elapsed is 0.2 s, less than one second. -/
theorem UpdateStates_fires_within_the_second :
    (MembershipList.UpdateStates ⟨[⟨"n1", ⟨Failed, 900000000⟩, 0, 8000⟩]⟩
      (defaultTimeouts (fun _ => "")) 1100000000 (fun _ => true)).view.items =
      [⟨"n1", ⟨Delete, 900000000⟩, 0, 8000⟩] ∧
    ¬ ((1100000000 : Time) - 900000000 ≥
      (defaultTimeouts (fun _ => "")).T_DELETE * 1000000000) := by
  decide

theorem elapsed_lower_bound (now ts T : Int) (h : Time.Unix now - Time.Unix ts ≥ T) :
    now - ts > (T - 1) * 1000000000 := by
  unfold Time.Unix at h
  omega

theorem elapsedInt64_le (now : Time) (x : MembershipListItem) (hclock : 0 ≤ now)
    (hts : Time.Unix x.State.Timestamp ≤ maxInt) :
    elapsedInt64 now x ≤ elapsedSeconds now x := by
  apply wrapInt_le
  have hc : (0 : Int) ≤ now := hclock
  unfold elapsedSeconds
  unfold Time.Unix at hts ⊢
  unfold maxInt at hts
  unfold minInt
  omega

/-- C16, amended: aging fires on whole seconds. For a clock at or after the Unix epoch and
a record whose timestamp has an `int64` second count (as every Go time has): whenever one
`UpdateStates` pass, completed or not, changes the status of the record, the change is
`Suspicious` to `Failed`, `Failed` to `Delete` or `Left` to `Delete`, the difference of the
whole-second counts of `now` and of the record's timestamp is at least `T_FAIL`,
`T_DELETE` or `T_LEAVE` respectively, and the time that has really elapsed, in
nanoseconds, is more than that threshold minus one second. -/
theorem UpdateStates_fires_on_whole_seconds (ml : MembershipList) (cfg : Config) (now : Time)
    (dialOk : Nat → Bool) (k : Nat) (x y : MembershipListItem)
    (hclock : 0 ≤ now) (hts : Time.Unix x.State.Timestamp ≤ maxInt)
    (hx : ml.items[k]? = some x)
    (hy : (ml.UpdateStates cfg now dialOk).view.items[k]? = some y)
    (hchg : y.State.Status ≠ x.State.Status) :
    firedAfter now x y Suspicious Failed cfg.T_FAIL ∨
    firedAfter now x y Failed Delete cfg.T_DELETE ∨
    firedAfter now x y Left Delete cfg.T_LEAVE := by
  have hle := elapsedInt64_le now x hclock hts
  have hys : y.State.Status = agingRule cfg (elapsedInt64 now x) x.State.Status := by
    rcases UpdateStates_getElem?_cases ml cfg now dialOk k x hx with h | h
    · rw [h, Option.some.injEq] at hy
      exact absurd (congrArg (fun z => z.State.Status) hy.symm) hchg
    · rw [h, Option.some.injEq] at hy
      rw [← hy]; rfl
  unfold firedAfter
  rw [hys] at hchg ⊢
  unfold agingRule at hchg ⊢
  by_cases h1 : x.State.Status = Suspicious ∧ elapsedInt64 now x ≥ cfg.T_FAIL
  · rw [if_pos h1]
    have h3 : elapsedSeconds now x ≥ cfg.T_FAIL := le_trans h1.2 hle
    exact Or.inl ⟨h1.1, rfl, h3, elapsed_lower_bound _ _ _ h3⟩
  · rw [if_neg h1] at hchg ⊢
    by_cases h2 : (x.State.Status = Failed ∧ elapsedInt64 now x ≥ cfg.T_DELETE) ∨
        (x.State.Status = Left ∧ elapsedInt64 now x ≥ cfg.T_LEAVE)
    · rw [if_pos h2]
      rcases h2 with h2 | h2
      · have h3 : elapsedSeconds now x ≥ cfg.T_DELETE := le_trans h2.2 hle
        exact Or.inr (Or.inl ⟨h2.1, rfl, h3, elapsed_lower_bound _ _ _ h3⟩)
      · have h3 : elapsedSeconds now x ≥ cfg.T_LEAVE := le_trans h2.2 hle
        exact Or.inr (Or.inr ⟨h2.1, rfl, h3, elapsed_lower_bound _ _ _ h3⟩)
    · rw [if_neg h2] at hchg
      exact absurd rfl hchg

/-- Witness of C16: with the timeouts of the source, a record `Left` since 0.5 s is moved
to `Delete` by a pass at 2.2 s; the whole-second counts differ by 2, the threshold, and
the 1.7 s that have really elapsed are more than one second. -/
theorem UpdateStates_fires_on_whole_seconds_witness :
    (MembershipList.UpdateStates ⟨[⟨"n1", ⟨Left, 500000000⟩, 0, 8000⟩]⟩
      (defaultTimeouts (fun _ => "")) 2200000000 (fun _ => true)).view.items[0]? =
      some ⟨"n1", ⟨Delete, 500000000⟩, 0, 8000⟩ ∧
    (firedAfter 2200000000 ⟨"n1", ⟨Left, 500000000⟩, 0, 8000⟩
        ⟨"n1", ⟨Delete, 500000000⟩, 0, 8000⟩ Suspicious Failed
        (defaultTimeouts (fun _ => "")).T_FAIL ∨
      firedAfter 2200000000 ⟨"n1", ⟨Left, 500000000⟩, 0, 8000⟩
        ⟨"n1", ⟨Delete, 500000000⟩, 0, 8000⟩ Failed Delete
        (defaultTimeouts (fun _ => "")).T_DELETE ∨
      firedAfter 2200000000 ⟨"n1", ⟨Left, 500000000⟩, 0, 8000⟩
        ⟨"n1", ⟨Delete, 500000000⟩, 0, 8000⟩ Left Delete
        (defaultTimeouts (fun _ => "")).T_LEAVE) :=
  ⟨by decide,
    UpdateStates_fires_on_whole_seconds ⟨[⟨"n1", ⟨Left, 500000000⟩, 0, 8000⟩]⟩
      (defaultTimeouts (fun _ => "")) 2200000000 (fun _ => true) 0
      ⟨"n1", ⟨Left, 500000000⟩, 0, 8000⟩ ⟨"n1", ⟨Delete, 500000000⟩, 0, 8000⟩
      (by decide) (by decide) rfl (by decide) (by decide)⟩

/-- C17 as stated fails: when the connection cannot be opened, a pass at 10 s moves the
record that is `Suspicious` since 2 s to `Failed` and then stops without having sent
anything; the record `n2` behind it is not aged. -/
theorem UpdateStates_sends_nothing_without_connection :
    (MembershipList.UpdateStates
      ⟨[⟨"n1", ⟨Suspicious, 2000000000⟩, 0, 8000⟩, ⟨"n2", ⟨Failed, 2000000000⟩, 0, 8000⟩]⟩
      (defaultTimeouts (fun _ => "")) 10000000000 (fun _ => false)).view.items =
      [⟨"n1", ⟨Failed, 2000000000⟩, 0, 8000⟩, ⟨"n2", ⟨Failed, 2000000000⟩, 0, 8000⟩] ∧
    (MembershipList.UpdateStates
      ⟨[⟨"n1", ⟨Suspicious, 2000000000⟩, 0, 8000⟩, ⟨"n2", ⟨Failed, 2000000000⟩, 0, 8000⟩]⟩
      (defaultTimeouts (fun _ => "")) 10000000000 (fun _ => false)).sent = [] ∧
    (MembershipList.UpdateStates
      ⟨[⟨"n1", ⟨Suspicious, 2000000000⟩, 0, 8000⟩, ⟨"n2", ⟨Failed, 2000000000⟩, 0, 8000⟩]⟩
      (defaultTimeouts (fun _ => "")) 10000000000 (fun _ => false)).completed = false := by
  decide

/-- C17, amended: failure notification of a pass that runs to its end. The messages that
a completed `UpdateStates` pass sends are, in view order, one message for each record that
is `Suspicious` with elapsed at least `T_FAIL`, and nothing else; these are the records the
pass moves from `Suspicious` to `Failed`. Each message is the byte 3 (`MessageFailed`), the
byte 58 (a colon) and the bytes of the host name that the map gives for the part of the
record's id before its first colon. -/
theorem UpdateStates_notifications (ml : MembershipList) (cfg : Config) (now : Time)
    (dialOk : Nat → Bool) (hok : (ml.UpdateStates cfg now dialOk).completed = true) :
    (ml.UpdateStates cfg now dialOk).sent =
      (ml.items.filter (fun x => decide (failsNow cfg now x))).map
        (fun x => 3 :: 58 :: stringBytes (cfg.IptoHostMap (beforeColon x.Id))) ∧
    (∀ (k : Nat) (x y : MembershipListItem), ml.items[k]? = some x →
      (ml.UpdateStates cfg now dialOk).view.items[k]? = some y →
      (failsNow cfg now x ↔ (x.State.Status = Suspicious ∧ y.State.Status = Failed))) := by
  obtain ⟨hitems, hsent⟩ := UpdateStates_completed ml cfg now dialOk hok
  constructor
  · exact hsent
  · intro k x y hx hy
    rw [hitems, List.getElem?_map, hx, Option.map_some', Option.some.injEq] at hy
    have hys : y.State.Status = agingRule cfg (elapsedInt64 now x) x.State.Status := by
      rw [← hy]; rfl
    unfold failsNow
    constructor
    · intro h
      refine ⟨h.1, ?_⟩
      rw [hys, h.1, agingRule_suspicious, if_pos h.2]
    · rintro ⟨hs, hf⟩
      refine ⟨hs, ?_⟩
      rw [hys, hs, agingRule_suspicious] at hf
      by_contra hlt
      rw [if_neg hlt] at hf
      exact absurd hf (by decide)

/-- Witness of C17: with a host map that sends `10.0.0.7` to `vm7` and every connection
opened, the view `[n1 Failed, 10.0.0.7:8000 Suspicious since 2 s, n3 Suspicious since
10 s]` aged at 10 s sends the single message `3, 58, 'v', 'm', '7'`. -/
theorem UpdateStates_notifications_witness :
    (MembershipList.UpdateStates
      ⟨[⟨"n1", ⟨Failed, 2000000000⟩, 0, 8000⟩,
        ⟨"10.0.0.7:8000", ⟨Suspicious, 2000000000⟩, 0, 8000⟩,
        ⟨"n3", ⟨Suspicious, 10000000000⟩, 0, 8000⟩]⟩
      (defaultTimeouts (fun ip => if ip = "10.0.0.7" then "vm7" else "")) 10000000000
      (fun _ => true)).completed = true ∧
    (MembershipList.UpdateStates
      ⟨[⟨"n1", ⟨Failed, 2000000000⟩, 0, 8000⟩,
        ⟨"10.0.0.7:8000", ⟨Suspicious, 2000000000⟩, 0, 8000⟩,
        ⟨"n3", ⟨Suspicious, 10000000000⟩, 0, 8000⟩]⟩
      (defaultTimeouts (fun ip => if ip = "10.0.0.7" then "vm7" else "")) 10000000000
      (fun _ => true)).sent = [[3, 58, 118, 109, 55]] :=
  ⟨by decide, ((UpdateStates_notifications _ _ _ _ (by decide)).1).trans (by decide)⟩

/-! ## Append -/

/-- C18: `Append` inserts at the end and returns the position. After `Append` the view is
the old sequence followed by the given record, `Len` is the old length plus 1, the returned
index is the old length, and the record sits at that position. -/
theorem Append_at_end (ml : MembershipList) (item : MembershipListItem) :
    (ml.Append item).1.items = ml.items ++ [item] ∧
    (ml.Append item).1.Len = ml.Len + 1 ∧
    (ml.Append item).2 = ml.Len ∧
    (ml.Append item).2 = (ml.items.length : Int) ∧
    (ml.Append item).1.items[ml.items.length]? = some item := by
  refine ⟨rfl, ?_, ?_, ?_, ?_⟩
  · simp [MembershipList.Append, MembershipList.Len]
  · simp [MembershipList.Append, MembershipList.Len]
  · simp [MembershipList.Append]
  · simp [MembershipList.Append]

/-! ## Merge: the incoming tail and the order of ids -/

/-- When the first ids of the incoming sequence are the local ids, the walk pairs the
local records with them and leaves the incoming records behind them. -/
theorem mergeWalk_of_ids_take (now : Time) (m1 : List MembershipListItem) :
    ∀ m2 : List MembershipListItem, ids m1 = ids (m2.take m1.length) →
      mergeWalk now m1 m2 = (List.zipWith (mergeItem now) m1 m2, [], m2.drop m1.length) := by
  induction m1 with
  | nil => intro m2 _; simp [mergeWalk]
  | cons a rest1 ih =>
    intro m2 h
    cases m2 with
    | nil => simp [ids] at h
    | cons b rest2 =>
      simp only [ids, List.length_cons, List.take_succ_cons, List.map_cons,
        List.cons.injEq] at h
      simp only [mergeWalk, if_pos h.1, ih rest2 h.2, List.zipWith_cons_cons,
        List.length_cons, List.drop_succ_cons]

theorem mergeAdmit_eq (now : Time) (v : List MembershipListItem) :
    mergeAdmit now v =
      (v.filter (fun r => decide (isLive r.State.Status))).map (withTimestamp now) := by
  induction v with
  | nil => rfl
  | cons b rest ih =>
    simp only [mergeAdmit, List.filter_cons, ih]
    by_cases h : b.State.Status = Alive ∨ b.State.Status = Suspicious
    · have h2 : isLive b.State.Status := h
      simp [h, h2, withTimestamp]
    · have h2 : ¬ isLive b.State.Status := h
      simp [h, h2]

/-- When the ids of the local records occur, in their order, among the ids of a first
stretch `R1` of the incoming sequence, the walk matches every local record within `R1`, and
what it leaves of the incoming sequence ends with everything behind `R1`. -/
theorem mergeWalk_rest_of_sublist (now : Time) (R2 : List MembershipListItem)
    (R1 : List MembershipListItem) :
    ∀ m1 : List MembershipListItem, List.Sublist (ids m1) (ids R1) →
      ∃ rest, (mergeWalk now m1 (R1 ++ R2)).2.2 = rest ++ R2 := by
  induction R1 with
  | nil =>
    intro m1 h
    cases m1 with
    | nil => exact ⟨[], by simp [mergeWalk]⟩
    | cons a rest1 => simp [ids] at h
  | cons b rest2 ih =>
    intro m1 h
    cases m1 with
    | nil => exact ⟨b :: rest2, by simp [mergeWalk]⟩
    | cons a rest1 =>
      simp only [List.cons_append, mergeWalk]
      simp only [ids, List.map_cons] at h
      split_ifs with hid
      · rw [hid] at h
        exact ih rest1 (List.cons_sublist_cons.mp h)
      · exact ih (a :: rest1) (List.Sublist.of_cons_of_ne hid h)

/-- C6, amended: admission of `Alive` records behind the local ones. For every local view
and every incoming sequence `R1 ++ R2` (sorted or not) such that the ids of the local view
occur in their order among the ids of `R1`, every record of `R2` with status `Alive` is in
the merged view, with timestamp `now` and every other field as received. -/
theorem Merge_admits_alive_behind_local (m1 : MembershipList)
    (R1 R2 : List MembershipListItem) (now : Time) (r : MembershipListItem)
    (hsub : List.Sublist (ids m1.items) (ids R1)) (hr : r ∈ R2)
    (hs : r.State.Status = Alive) :
    withTimestamp now r ∈ (m1.Merge now (R1 ++ R2)).items := by
  obtain ⟨rest, hrest⟩ := mergeWalk_rest_of_sublist now R2 R1 m1.items hsub
  show withTimestamp now r ∈ ((mergeWalk now m1.items (R1 ++ R2)).1 ++
    (mergeWalk now m1.items (R1 ++ R2)).2.1) ++
    mergeAdmit now (mergeWalk now m1.items (R1 ++ R2)).2.2
  rw [hrest, mergeAdmit_eq]
  refine List.mem_append_right _ (List.mem_map_of_mem _ (List.mem_filter.mpr ⟨?_, ?_⟩))
  · exact List.mem_append_right _ hr
  · exact decide_eq_true (Or.inl hs)

/-- Witness of C6: local `[b]`, incoming `[a, b] ++ [c]` with `c` `Alive`: the record `c`
stands behind the record matching `b` and is in the merged view with timestamp 99. -/
theorem Merge_admits_alive_behind_local_witness :
    List.Sublist (ids [MembershipListItem.mk "b" ⟨Alive, 5⟩ 0 8000])
      (ids [MembershipListItem.mk "a" ⟨Alive, 6⟩ 0 8000, ⟨"b", ⟨Alive, 6⟩, 0, 8000⟩]) ∧
    MembershipListItem.mk "c" ⟨Alive, 99⟩ 2 8001 ∈
      (MembershipList.Merge ⟨[⟨"b", ⟨Alive, 5⟩, 0, 8000⟩]⟩ 99
        ([⟨"a", ⟨Alive, 6⟩, 0, 8000⟩, ⟨"b", ⟨Alive, 6⟩, 0, 8000⟩] ++
          [⟨"c", ⟨Alive, 6⟩, 2, 8001⟩])).items :=
  ⟨by decide,
    Merge_admits_alive_behind_local ⟨[⟨"b", ⟨Alive, 5⟩, 0, 8000⟩]⟩
      [⟨"a", ⟨Alive, 6⟩, 0, 8000⟩, ⟨"b", ⟨Alive, 6⟩, 0, 8000⟩] [⟨"c", ⟨Alive, 6⟩, 2, 8001⟩] 99
      ⟨"c", ⟨Alive, 6⟩, 2, 8001⟩ (by decide) (by decide) rfl⟩

/-- C19: admission of the incoming tail. When the incoming sequence is at least as long as
the local view and its first `len(L)` ids are the local ids position by position, the
merged view is `len(L)` records with the local ids in the local order (the local records
combined with their incoming partners), followed by the records of `R[len(L):]` whose
status is `Alive` or `Suspicious`, in their order, each with timestamp `now` and its other
fields as received; the other tail records are left out. -/
theorem Merge_admits_tail (m1 : MembershipList) (m2 : List MembershipListItem) (now : Time)
    (hlen : m1.items.length ≤ m2.length)
    (hids : ids m1.items = ids (m2.take m1.items.length)) :
    (m1.Merge now m2).items =
      List.zipWith (mergeItem now) m1.items m2 ++
        ((m2.drop m1.items.length).filter (fun r => decide (isLive r.State.Status))).map
          (withTimestamp now) ∧
    (List.zipWith (mergeItem now) m1.items m2).length = m1.items.length ∧
    ids (List.zipWith (mergeItem now) m1.items m2) = ids m1.items := by
  have hw := mergeWalk_of_ids_take now m1.items m2 hids
  have hfront := mergeWalk_front_ids now m1.items m2
  rw [hw] at hfront
  refine ⟨?_, ?_, ?_⟩
  · show (mergeWalk now m1.items m2).1 ++ (mergeWalk now m1.items m2).2.1 ++
      mergeAdmit now (mergeWalk now m1.items m2).2.2 = _
    rw [hw, mergeAdmit_eq]
    simp
  · rw [List.length_zipWith]
    exact Nat.min_eq_left hlen
  · simpa using hfront

/-- Witness of C19: local `[n1, n2]`, incoming `[n1, n2, n3 Alive, n4 Failed, n5
Suspicious]` at time 99 give `[n1, n2, n3, n5]`, the two new records with timestamp 99. -/
theorem Merge_admits_tail_witness :
    (MembershipList.Merge ⟨[⟨"n1", ⟨Alive, 5⟩, 0, 8000⟩, ⟨"n2", ⟨Failed, 5⟩, 0, 8000⟩]⟩ 99
      [⟨"n1", ⟨Alive, 6⟩, 0, 8000⟩, ⟨"n2", ⟨Alive, 6⟩, 3, 8000⟩, ⟨"n3", ⟨Alive, 6⟩, 1, 8001⟩,
        ⟨"n4", ⟨Failed, 6⟩, 2, 8002⟩, ⟨"n5", ⟨Suspicious, 6⟩, 3, 8003⟩]).items =
      [⟨"n1", ⟨Alive, 5⟩, 0, 8000⟩, ⟨"n2", ⟨Failed, 5⟩, 0, 8000⟩,
        ⟨"n3", ⟨Alive, 99⟩, 1, 8001⟩, ⟨"n5", ⟨Suspicious, 99⟩, 3, 8003⟩] :=
  (Merge_admits_tail ⟨[⟨"n1", ⟨Alive, 5⟩, 0, 8000⟩, ⟨"n2", ⟨Failed, 5⟩, 0, 8000⟩]⟩
    [⟨"n1", ⟨Alive, 6⟩, 0, 8000⟩, ⟨"n2", ⟨Alive, 6⟩, 3, 8000⟩, ⟨"n3", ⟨Alive, 6⟩, 1, 8001⟩,
      ⟨"n4", ⟨Failed, 6⟩, 2, 8002⟩, ⟨"n5", ⟨Suspicious, 6⟩, 3, 8003⟩] 99
    (by decide) (by decide)).1.trans (by decide)

/-- What the walk leaves of an ordered incoming sequence comes after every local id: each
local id that the walk has passed equals an earlier incoming id. -/
theorem mergeWalk_rest_after (lt : String → String → Prop) (now : Time)
    (m2 : List MembershipListItem) :
    ∀ m1 : List MembershipListItem, (ids m2).Pairwise lt →
      ∀ x ∈ (mergeWalk now m1 m2).2.2, ∀ a ∈ ids m1, lt a x.Id := by
  induction m2 with
  | nil =>
    intro m1 _ x hx
    cases m1 <;> simp [mergeWalk] at hx
  | cons b rest2 ih =>
    intro m1 hs x hx a ha
    have hs2 : (ids rest2).Pairwise lt := (List.pairwise_cons.mp hs).2
    have hb : ∀ c ∈ ids rest2, lt b.Id c := (List.pairwise_cons.mp hs).1
    cases m1 with
    | nil => simp [ids] at ha
    | cons a1 rest1 =>
      simp only [mergeWalk] at hx
      split_ifs at hx with h
      · have hx2 : x ∈ rest2 := (mergeWalk_rest_sublist now rest2 rest1).subset hx
        simp only [ids, List.map_cons, List.mem_cons] at ha
        rcases ha with e | e
        · rw [e, h]; exact hb _ (mem_ids hx2)
        · exact ih rest1 hs2 x hx a e
      · exact ih (a1 :: rest1) hs2 x hx a ha

/-- C20: `Merge` keeps the order of ids. For any order relation on ids, if the ids of the
local view and the ids of the incoming sequence are each strictly increasing (every id
below all later ones), then so are the ids of the merged view. -/
theorem Merge_keeps_sorted (lt : String → String → Prop) (m1 : MembershipList)
    (m2 : List MembershipListItem) (now : Time)
    (h1 : (ids m1.items).Pairwise lt) (h2 : (ids m2).Pairwise lt) :
    (ids (m1.Merge now m2).items).Pairwise lt := by
  show (ids (((mergeWalk now m1.items m2).1 ++ (mergeWalk now m1.items m2).2.1) ++
    mergeAdmit now (mergeWalk now m1.items m2).2.2)).Pairwise lt
  have hsplit : ids (((mergeWalk now m1.items m2).1 ++ (mergeWalk now m1.items m2).2.1) ++
      mergeAdmit now (mergeWalk now m1.items m2).2.2) =
      ids m1.items ++ ids (mergeAdmit now (mergeWalk now m1.items m2).2.2) := by
    rw [← mergeWalk_front_ids now m1.items m2]
    simp [ids]
  rw [hsplit, List.pairwise_append]
  refine ⟨h1, ?_, ?_⟩
  · exact h2.sublist ((mergeAdmit_ids_sublist now _).trans
      ((mergeWalk_rest_sublist now m2 m1.items).map _))
  · intro a ha c hc
    obtain ⟨x, hx, hxc⟩ := List.mem_map.mp hc
    obtain ⟨_, r, hr, hid, _⟩ := mem_mergeAdmit now _ x hx
    have := mergeWalk_rest_after lt now m2 m1.items h2 r hr a ha
    rw [← hxc, hid]; exact this

/-- Witness of C20: local `[a, c]` and incoming `[a, b, c, d]`, both strictly increasing
in the order of strings, merge into a view with strictly increasing ids. -/
theorem Merge_keeps_sorted_witness :
    SortedById [MembershipListItem.mk "a" ⟨Alive, 5⟩ 0 8000, ⟨"c", ⟨Alive, 5⟩, 0, 8000⟩] ∧
    SortedById [MembershipListItem.mk "a" ⟨Alive, 6⟩ 1 8000, ⟨"b", ⟨Alive, 6⟩, 0, 8000⟩,
      ⟨"c", ⟨Failed, 6⟩, 0, 8000⟩, ⟨"d", ⟨Alive, 6⟩, 0, 8000⟩] ∧
    SortedById (MembershipList.Merge
      ⟨[⟨"a", ⟨Alive, 5⟩, 0, 8000⟩, ⟨"c", ⟨Alive, 5⟩, 0, 8000⟩]⟩ 99
      [⟨"a", ⟨Alive, 6⟩, 1, 8000⟩, ⟨"b", ⟨Alive, 6⟩, 0, 8000⟩,
        ⟨"c", ⟨Failed, 6⟩, 0, 8000⟩, ⟨"d", ⟨Alive, 6⟩, 0, 8000⟩]).items := by
  have hL : SortedById [MembershipListItem.mk "a" ⟨Alive, 5⟩ 0 8000,
      ⟨"c", ⟨Alive, 5⟩, 0, 8000⟩] := by
    simp only [SortedById, ids, List.map_cons, List.map_nil, List.pairwise_cons,
      List.mem_singleton, forall_eq, String.lt_iff_toList_lt]
    decide
  have hR : SortedById [MembershipListItem.mk "a" ⟨Alive, 6⟩ 1 8000, ⟨"b", ⟨Alive, 6⟩, 0, 8000⟩,
      ⟨"c", ⟨Failed, 6⟩, 0, 8000⟩, ⟨"d", ⟨Alive, 6⟩, 0, 8000⟩] := by
    simp only [SortedById, ids, List.map_cons, List.map_nil, List.pairwise_cons,
      List.mem_cons, List.mem_singleton, forall_eq_or_imp, forall_eq,
      String.lt_iff_toList_lt]
    decide
  exact ⟨hL, hR, Merge_keeps_sorted (fun a b => a < b) _ _ 99 hL hR⟩

end membershiplist
